import Mathlib

/-!
Verification of the array-value execution core (src/array.rs and
src/algorithm/loops.rs) against its natural-language specification.

The Rust code is shallowly embedded: an array is a shape together with a
flat row-major data list, fallible code returns `Except UErr`, and the
stack-execution environment is modelled by explicit list-shaped stacks.
Machine integers (`isize`) are embedded as `Int` with the concrete
constant `2^63 - 1` where the source mentions `isize::MAX`; `f64`
repetition counts are embedded by their classification (finite rational,
either infinity, or NaN), which is all the classifying code inspects.

Functions of the repository that are not part of the two provided source
files (the generic `Array<T>` row machinery, `Value::from_row_values`,
`force_length`, the pervasive broadcast kernel) are modelled from the
specification; each such definition carries a doc comment saying so.
-/

deriving instance DecidableEq for Except

/-- The error kinds named by the specification (§7).  `crash` is not a
runtime error value: it models a Rust panic (an `unwrap` of `None` or an
out-of-bounds slice index). -/
inductive UErr where
  | shapeMismatch
  | typeMismatch
  | signatureError
  | stackUnderflow
  | domainError
  | consistencyError
  | noGroups
  | crash
  deriving Repr, DecidableEq

/-- An array: a shape (list of dimension sizes) and a flat, row-major
data list.  Embeds both `src/array.rs`'s `Array` (whose union storage is
abstracted to a single element type) and the generic `Array<T>` used by
`src/algorithm/loops.rs`. -/
structure UArr (α : Type) where
  shape : List Nat
  data : List α
  deriving Repr, DecidableEq

namespace UArr

/-- The data-model invariant of the spec (§3):
`data.len() == product(shape)`. -/
def wf (a : UArr α) : Prop := a.data.length = a.shape.prod

instance (a : UArr α) [DecidableEq α] : Decidable a.wf := by
  unfold wf; infer_instance

/-- `Array::len` from src/array.rs (lines 39-41):
`self.shape.first().copied().unwrap_or(0)`. -/
def len (a : UArr α) : Nat := a.shape.headD 0

/-- `Array::rank` from src/array.rs. -/
def rank (a : UArr α) : Nat := a.shape.length

/-- Modelled from the spec: the row count of the generic `Array<T>`
(`row_count`, not under src/): "row count = shape[0] (1 if rank 0)". -/
def rowCount (a : UArr α) : Nat := a.shape.headD 1

/-- The shape test of `Array::shape_prefix_matches` from src/array.rs
(lines 89-91): `self.shape.iter().zip(&other.shape).all(|(a, b)| a == b)`. -/
def shapesZipEq (as_ bs : List Nat) : Bool :=
  (as_.zip bs).all fun p => p.1 == p.2

/-- `Array::shape_prefix_matches` from src/array.rs (lines 89-91). -/
def shapePrefixMatches (a b : UArr α) : Bool :=
  shapesZipEq a.shape b.shape

/-- `Array::deshape` from src/array.rs (lines 109-112): the shape is
replaced by the one-element list holding the product of the old shape;
the data is untouched. -/
def deshape (a : UArr α) : UArr α := ⟨[a.shape.prod], a.data⟩

end UArr

/-- Split a list into `count` consecutive chunks of `sz` elements each
(row-major rows/slices of an array). -/
def chunksExact (sz : Nat) : Nat → List α → List (List α)
  | 0, _ => []
  | n + 1, d => d.take sz :: chunksExact sz n (d.drop sz)

namespace UArr

/-- Modelled from the spec: `into_rows` of the generic `Array<T>` (not
under src/): the finite sequence of rows; a rank-0 array has one row,
itself. -/
def rows (a : UArr α) : List (UArr α) :=
  match a.shape with
  | [] => [a]
  | n :: rest => (chunksExact rest.prod n a.data).map fun d => ⟨rest, d⟩

/-- Modelled from the spec: `Array::row(i)` (not under src/): the copy of
the sub-array at outer index `i`; an out-of-bounds index is a Rust panic,
modelled as `UErr.crash`. -/
def rowE (a : UArr α) (i : Nat) : Except UErr (UArr α) :=
  match a.rows.get? i with
  | some r => .ok r
  | none => .error .crash

end UArr

/-- `indices.data.iter().max()` for the embedded integer data. -/
def maxList : List Int → Option Int
  | [] => none
  | x :: xs => some ((maxList xs).elim x (max x))

/-- Modelled from the spec: `Value::from_row_values` (not under src/):
reassembles a sequence of rows into one value with those rows; the rows
must agree in shape (otherwise the reassembly is the ShapeMismatch error
of §7); an empty sequence gives the empty rank-1 value. -/
def fromRowValuesE : List (UArr α) → Except UErr (UArr α)
  | [] => .ok ⟨[0], []⟩
  | r :: rs =>
    if rs.all fun x => x.shape = r.shape then
      .ok ⟨(r :: rs).length :: r.shape, ((r :: rs).map UArr.data).flatten⟩
    else .error .shapeMismatch

/-- Modelled from the spec: `Array::from_row_arrays_infallible` (not
under src/): stacks same-shaped arrays into one array with them as rows
(its callers in loops.rs only ever pass same-shaped rows). -/
def fromRowArraysInfallible : List (UArr α) → UArr α
  | [] => ⟨[0], []⟩
  | r :: rs => ⟨(r :: rs).length :: r.shape, ((r :: rs).map UArr.data).flatten⟩

/-- `list.starts_with(p)` on shapes, as used by
`Array::group_groups`. -/
def listStarts : List Nat → List Nat → Bool
  | _, [] => true
  | [], _ :: _ => false
  | a :: as_, b :: bs => a == b && listStarts as_ bs

/-- src/array.rs constructors `From<f64>` / `From<char>`: a scalar array
(empty shape, one element). -/
def fromScalar (x : α) : UArr α := ⟨[], [x]⟩

/-- src/array.rs constructors `From<Vec<f64>>` / `From<Vec<char>>` /
`From<Vec<Value>>`: a rank-1 array over the whole vector. -/
def fromVec (v : List α) : UArr α := ⟨[v.length], v⟩

/-- src/array.rs `From<(Vec<usize>, T)>` (lines 461-470): build the array
from the flat data, then overwrite its shape — the data is NOT resized. -/
def fromPair (shape : List Nat) (inner : UArr α) : UArr α :=
  ⟨shape, inner.data⟩

/-- Modelled from the spec: `force_length` (not under src/): "resize
backing storage to the new element count: truncate if smaller, pad with
the element kind's default value if larger". -/
def forceLength (dflt : α) (d : List α) (n : Nat) : List α :=
  d.take n ++ List.replicate (n - d.length) dflt

/-- `Array::reshape` from src/array.rs (lines 113-121): set the shape,
then force the data to the new element count. -/
def reshapeA (dflt : α) (a : UArr α) (shape : List Nat) : UArr α :=
  ⟨shape, forceLength dflt a.data shape.prod⟩

/-- Stable insertion of a row into a sorted list of rows, for the
model of `sort`. -/
def insertRow (le : List α → List α → Bool) (x : List α) :
    List (List α) → List (List α)
  | [] => [x]
  | y :: ys => if le x y then x :: y :: ys else y :: insertRow le x ys

/-- Stable insertion sort on rows, for the model of `sort`. -/
def insertionSortRows (le : List α → List α → Bool) :
    List (List α) → List (List α)
  | [] => []
  | x :: xs => insertRow le x (insertionSortRows le xs)

/-- `Array::sort` from src/array.rs (lines 78-88); the helper
`sort_array` is not under src/ and is modelled from the spec: a stable
sort of the rows (the comparator is a parameter; the spec's NaN rule only
fixes which comparator is used, not the row permutation machinery). -/
def sortRows (le : List α → List α → Bool) (a : UArr α) : UArr α :=
  match a.shape with
  | [] => a
  | n :: rest =>
    ⟨a.shape, (insertionSortRows le (chunksExact rest.prod n a.data)).flatten⟩

/-- `Array::normalize` from src/array.rs (lines 92-104), with the
external `Value` kind tests abstracted: if every element satisfies the
uniform-kind test `p`, the data is rebuilt elementwise by the unboxing
map `f` and the shape is restored; otherwise the array is unchanged. -/
def normalizeM (p : α → Bool) (f : α → α) (a : UArr α) : UArr α :=
  if a.data.all p then ⟨a.shape, a.data.map f⟩ else a

/-- Modelled from the spec: the pervasive broadcast kernel `pervade` (not
under src/), with the definedness test taken from the source's
`Array::shape_prefix_matches`: if one shape is an element-wise-equal
prefix of the other, the result has the longer shape and element `i` is
`op(A[i mod len(A)], B[i mod len(B)])`; otherwise ShapeMismatch. -/
def pervadeK [Inhabited α] [Inhabited β] (a : UArr α) (b : UArr β)
    (op : α → β → γ) : Except UErr (UArr γ) :=
  if UArr.shapesZipEq a.shape b.shape then
    let rsh := if b.shape.length > a.shape.length then b.shape else a.shape
    .ok ⟨rsh, (List.range rsh.prod).map fun i =>
      op (a.data.getD (i % a.data.length) default)
         (b.data.getD (i % b.data.length) default)⟩
  else .error .shapeMismatch

/-- `Signature` from the runtime (declared `{args, outputs}` stack
arity, spec §3); loops.rs only inspects and composes these. -/
structure Signature where
  args : Nat
  outputs : Nat
  deriving Repr, DecidableEq

/-- The classification of an `f64` repetition count: a finite value
(a dyadic rational, embedded in `ℚ`), one of the two infinities, or
NaN.  This is everything `repeat` inspects about the count. -/
inductive FCount where
  | finite (q : ℚ)
  | posInf
  | negInf
  | nan
  deriving Repr, DecidableEq

/-- `f64::is_infinite`: true for both infinities. -/
def FCount.isInfinite : FCount → Bool
  | posInf => true
  | negInf => true
  | _ => false

/-- The IEEE comparison `n < 0.0` (false for NaN). -/
def FCount.ltZero : FCount → Bool
  | finite q => decide (q < 0)
  | negInf => true
  | _ => false

/-- The IEEE test `n.fract() != 0.0` (`fract` of NaN or an infinity is
NaN, and `NaN != 0.0` is true). -/
def FCount.fractNeZero : FCount → Bool
  | finite q => decide (q.den ≠ 1)
  | _ => true

/-- The cast `n as usize` on an already-validated non-negative integral
count. -/
def FCount.toUsize : FCount → Nat
  | finite q => q.num.toNat
  | _ => 0

/-- Which loop body `repeat` proceeds to after validating the count. -/
inductive RepeatBranch where
  | fixpointLoop
  | finiteLoop (n : Nat)
  deriving Repr, DecidableEq

/-- The validation prelude of `repeat` from src/algorithm/loops.rs
(lines 15-61): after popping the function (signature `sig`) and the
count `n`, decide which error (if any) is raised before any call to the
function, and otherwise which loop runs.  `is_infinite` is tested first
(it holds for negative infinity too); only in the finite branch is
`n < 0.0 || n.fract() != 0.0` tested and reported as the DomainError
"Repetitions must be a natural number or infinity". -/
def repeatStart (sig : Signature) (n : FCount) : Except UErr RepeatBranch :=
  if n.isInfinite then
    if sig.args = 0 then .error .signatureError
    else if sig.args ≠ sig.outputs then .error .signatureError
    else .ok .fixpointLoop
  else
    if n.ltZero || n.fractNeZero then .error .domainError
    else .ok (.finiteLoop n.toUsize)

/-- The signature validation of `do_` from src/algorithm/loops.rs (lines
63-99).  `Signature::compose` is not under src/, so the composition is a
parameter `comp`; the saturating subtraction of `usize` is `Nat`
subtraction. -/
def doCheck (comp : Signature → Signature → Signature)
    (fsig gsig : Signature) : Except UErr Unit :=
  if gsig.outputs < 1 then .error .signatureError
  else
    let copyCount := gsig.args - (gsig.outputs - 1)
    let gSub : Signature := ⟨gsig.args, gsig.outputs + copyCount - 1⟩
    let csig := comp fsig gSub
    if csig.args ≠ csig.outputs then .error .signatureError
    else .ok ()

/-- `isize::MAX`, the initial `last_marker` sentinel of
`Array::partition_groups`. -/
def isizeMax : Int := 2 ^ 63 - 1

/-- One iteration of the marker loop of `Array::partition_groups`
(src/algorithm/loops.rs lines 302-312): a positive marker different from
the previous one opens a new group; the row is then pushed onto the last
group — `groups.last_mut().unwrap()`, a panic (`crash`) when no group
exists, which happens exactly when the first marker equals the
`isize::MAX` sentinel. -/
def partStep (st : List (List ρ) × Int) (p : ρ × Int) :
    Except UErr (List (List ρ) × Int) :=
  let (row, m) := p
  if m > 0 then
    let gs := if m ≠ st.2 then st.1 ++ [[]] else st.1
    match gs.getLast? with
    | none => .error .crash
    | some g => .ok (gs.dropLast ++ [g ++ [row]], m)
  else .ok (st.1, m)

/-- `Array::partition_groups` from src/algorithm/loops.rs (lines
289-315): markers must be as many as the rows; rows are grouped into
maximal runs of equal positive markers; each group is stacked with
`from_row_arrays_infallible`. -/
def partitionGroups (a : UArr α) (markers : List Int) :
    Except UErr (List (UArr α)) :=
  if markers.length ≠ a.rowCount then .error .shapeMismatch
  else do
    let st ← (a.rows.zip markers).foldlM partStep ([], isizeMax)
    .ok (st.1.map fromRowArraysInfallible)

/-- `groups[g as usize].push(r)` of `Array::group_groups`. -/
def pushAt (bs : List (List ρ)) (k : Nat) (x : ρ) : List (List ρ) :=
  bs.set k ((bs.getD k []) ++ [x])

/-- The index loop of `Array::group_groups`: each non-negative index
sends its slice to the bucket it names. -/
def buildBuckets (init : List (List ρ)) (ps : List (Int × ρ)) :
    List (List ρ) :=
  ps.foldl (fun bs p => if p.1 ≥ 0 then pushAt bs p.1.toNat p.2 else bs) init

/-- Modelled from the spec: `into_row_shaped_slices(row_shape)` (not
under src/): the consecutive `row_shape`-shaped slices of the flat data,
one per index (`row_shape` is the values' shape with the indices' rank
dropped). -/
def slicesOf (a : UArr α) (idx : UArr Int) : List (UArr α) :=
  (chunksExact (a.shape.drop idx.shape.length).prod idx.data.length
    a.data).map fun d => ⟨a.shape.drop idx.shape.length, d⟩

/-- `Array::group_groups` from src/algorithm/loops.rs (lines 342-370):
the indices' shape must be a prefix of the values' shape; with no index
at all there are no groups; otherwise `max(max_index, 0) + 1` buckets
are filled by the non-negative indices from the row-shaped slices of the
values, and each bucket is stacked. -/
def groupGroups (a : UArr α) (idx : UArr Int) :
    Except UErr (List (UArr α)) :=
  if ¬ listStarts a.shape idx.shape then .error .shapeMismatch
  else
    match maxList idx.data with
    | none => .ok []
    | some mx =>
      let buckets := buildBuckets (List.replicate ((max mx 0).toNat + 1) [])
        (idx.data.zip (slicesOf a idx))
      .ok (buckets.map fromRowArraysInfallible)

/-- One iteration of the run-length counting loop of
`unpartition_part2` (src/algorithm/loops.rs lines 147-154): equal
markers bump the last run's count, a different marker starts a run. -/
def mpStep (st : List (Int × Nat) × Int) (m : Int) :
    List (Int × Nat) × Int :=
  if m = st.2 then
    (match st.1.getLast? with
      | some pc => st.1.dropLast ++ [(pc.1, pc.2 + 1)]
      | none => [(m, 1)], m)
  else (st.1 ++ [(m, 1)], m)

/-- The run-length counting loop of `unpartition_part2`
(src/algorithm/loops.rs lines 142-155): `marker_partitions`. -/
def markerParts (ms : List Int) : List (Int × Nat) :=
  match ms with
  | [] => []
  | m0 :: rest => (rest.foldl mpStep ([(m0, 1)], m0)).1

/-- The splicing loop of `unpartition_part2` (src/algorithm/loops.rs
lines 167-179): walk the marker runs in order; a positive run consumes
the next untransformed row (a transformed group) and splices in ALL of
its rows, with no comparison against the run's length; a non-positive
run copies the original rows at the running offset. -/
def unpartSplice (orig : UArr α) :
    List (Int × Nat) → List (UArr α) → Nat → Except UErr (List (UArr α))
  | [], _, _ => .ok []
  | (m, len) :: parts, utRows, off =>
    if m > 0 then
      match utRows with
      | [] => .error .crash
      | g :: rest => do
        let tl ← unpartSplice orig parts rest (off + len)
        .ok (g.rows ++ tl)
    else do
      let mine ← (List.range' off len).mapM fun i => orig.rowE i
      let tl ← unpartSplice orig parts utRows (off + len)
      .ok (mine ++ tl)

/-- `unpartition_part2` from src/algorithm/loops.rs (lines 136-182): the
count of positive marker runs must equal the untransformed array's row
count (else the ConsistencyError about changed row count); then the runs
are walked and spliced.  Each untransformed row is passed through
`Value::unboxed`, the inverse of the boxing done by `unpartition_part1`;
for the identity transform this is the identity and is omitted here. -/
def unpartitionPart2 (untransformed : UArr α) (ms : List Int)
    (original : UArr α) : Except UErr (UArr α) :=
  let parts := markerParts ms
  let pos := (parts.filter fun p => p.1 > 0).length
  if pos ≠ untransformed.rowCount then .error .consistencyError
  else do
    let out ← unpartSplice original parts untransformed.rows 0
    fromRowValuesE out

/-- The drawing loop of `ungroup_part2` (src/algorithm/loops.rs lines
234-242): walk the indices in original order; a non-negative index draws
the next not-yet-consumed row of the group it names (exhaustion is the
"group's length was modified" ConsistencyError); a negative index copies
the original row at the current position. -/
def ungroupDraw (orig : UArr α) :
    List Int → List (List (UArr α)) → Nat → Except UErr (List (UArr α))
  | [], _, _ => .ok []
  | i :: rest, st, pos =>
    if i ≥ 0 then
      match st.getD i.toNat [] with
      | [] => .error .consistencyError
      | r :: more => do
        let tl ← ungroupDraw orig rest (st.set i.toNat more) (pos + 1)
        .ok (r :: tl)
    else do
      let r ← orig.rowE pos
      let tl ← ungroupDraw orig rest st (pos + 1)
      .ok (r :: tl)

/-- `ungroup_part2` from src/algorithm/loops.rs (lines 209-250): first
the bounds check of every non-negative index against the ungrouped
array's row count (else ConsistencyError); then each ungrouped row is
unboxed into its rows (`unboxed` is the identity for the identity
transform) and the indices are walked; the reassembled value finally has
its first dimension replaced by the full shape of the indices. -/
def ungroupPart2 (ungroupedV : UArr α) (idx : UArr Int)
    (original : UArr α) : Except UErr (UArr α) :=
  if idx.data.any (fun i => decide (0 ≤ i) &&
      decide (ungroupedV.rowCount ≤ i.toNat)) then
    .error .consistencyError
  else do
    let st := ungroupedV.rows.map UArr.rows
    let out ← ungroupDraw original idx.data st 0
    let v ← fromRowValuesE out
    .ok ⟨idx.shape ++ v.shape.tail, v.data⟩

/-- A callable of the stack-execution contract (§4.3): its declared
signature and its behaviour, a pure map from the ambient fill value and
the `args` consumed stack values (top first) to the `outputs` produced
stack values (top first). -/
structure FnModel (V : Type) where
  sig : Signature
  impl : Option V → List V → List V

/-- `call` of the execution contract: consumes `sig.args` values and
pushes the produced values (StackUnderflow when fewer are available). -/
def callFn (fill : Option V) (f : FnModel V) (stack : List V) :
    Except UErr (List V) :=
  if stack.length < f.sig.args then .error .stackUnderflow
  else .ok (f.impl fill (stack.take f.sig.args) ++ stack.drop f.sig.args)

/-- The inner pop loop of the map arm of `collapse_groups`: pop a
value, collecting it into output sequence `i` only when
`sig.args == 1`. -/
def popLoop (f : FnModel V) (st2 : List (List V) × List V) (i : Nat) :
    Except UErr (List (List V) × List V) :=
  match st2.2 with
  | [] => .error .stackUnderflow
  | v :: rest =>
    if f.sig.args = 1 then
      if i < st2.1.length then
        .ok (st2.1.set i ((st2.1.getD i []) ++ [v]), rest)
      else .error .crash
    else .ok (st2.1, rest)

/-- The per-group body of the map arm: push the group, call the
function with the fill masked, pop `outputs.max(1)` values. -/
def groupBody (f : FnModel V) (st : List (List V) × List V) (group : V) :
    Except UErr (List (List V) × List V) := do
  let stack2 ← callFn none f (group :: st.2)
  (List.range (max f.sig.outputs 1)).foldlM (popLoop f) (st.1, stack2)

/-- The final phase of the map arm: push one reassembled value per
output sequence, last sequence first. -/
def pushResults (fromRows : List V → Except UErr V)
    (seqs : List (List V)) (stack : List V) : Except UErr (List V) :=
  seqs.reverse.foldlM (fun stck rseq => do
      let v ← fromRows rseq
      .ok (v :: stck)) stack

/-- The map arm `(0 | 1, outputs)` of `collapse_groups` from
src/algorithm/loops.rs (lines 382-403): for every group, push the group
(unconditionally), call the function with the fill masked
(`without_fill`), then pop `outputs.max(1)` values, appending each to
its output sequence only when `sig.args == 1`; finally push one
reassembled value per output sequence, last sequence first, so that the
first sequence ends on top.  The output-sequence container
`multi_output(outputs, ...)` is not under src/ and is modelled from the
spec as `outputs` parallel sequences; `Value::from_row_values` is the
parameter `fromRows`. -/
def collapseMapForm (fromRows : List V → Except UErr V) (f : FnModel V)
    (groups : List V) (stack : List V) : Except UErr (List V) := do
  let st ← groups.foldlM (groupBody f)
    (List.replicate f.sig.outputs ([] : List V), stack)
  pushResults fromRows st.1 st.2

/-- The identity transform, a callable of signature `(1, 1)` returning
its argument. -/
def idFn (V : Type) : FnModel V := ⟨⟨1, 1⟩, fun _ xs => xs⟩

/-- The group primitive applied with the identity map-form transform:
`group_groups` followed by the map arm of `collapse_groups`, starting
from an empty stack, returning the single produced value. -/
def groupIdMap (v : UArr α) (idx : UArr Int) : Except UErr (UArr α) := do
  let gs ← groupGroups v idx
  let st ← collapseMapForm fromRowValuesE (idFn (UArr α)) gs []
  match st with
  | [g] => .ok g
  | _ => .error .crash

/-- The partition primitive applied with the identity map-form
transform. -/
def partitionIdMap (v : UArr α) (ms : List Int) : Except UErr (UArr α) := do
  let gs ← partitionGroups v ms
  let st ← collapseMapForm fromRowValuesE (idFn (UArr α)) gs []
  match st with
  | [g] => .ok g
  | _ => .error .crash

/-- `(l.dropWhile p).length ≤ l.length`, for the termination of
`runsOf`. -/
theorem dropWhile_len_le (p : ρ → Bool) :
    ∀ l : List ρ, (l.dropWhile p).length ≤ l.length := by
  intro l
  induction l with
  | nil => simp [List.dropWhile]
  | cons x xs ih =>
    by_cases h : p x
    · simp only [List.dropWhile, h]
      exact Nat.le_succ_of_le ih
    · simp [List.dropWhile, h]


/-- The declarative run decomposition: maximal runs of adjacent pairs
sharing the same marker, each run keeping its marker and its rows in
order (built right to left; a pair merges into the following run when
the markers agree). -/
def runsOf : List (ρ × Int) → List (Int × List ρ)
  | [] => []
  | (r, m) :: rest =>
    match runsOf rest with
    | [] => [(m, [r])]
    | (m', rs) :: t =>
      if m = m' then (m, r :: rs) :: t else (m, [r]) :: (m', rs) :: t

theorem runsOf_cons_head (r : ρ) (m : Int) (rest : List (ρ × Int)) :
    ∃ rs t, runsOf ((r, m) :: rest) = (m, r :: rs) :: t := by
  cases hrr : runsOf rest with
  | nil => exact ⟨[], [], by simp [runsOf, hrr]⟩
  | cons q t =>
    obtain ⟨m', rs⟩ := q
    by_cases hm : m = m'
    · refine ⟨rs, t, ?_⟩
      simp [runsOf, hrr, hm]
    · refine ⟨[], (m', rs) :: t, ?_⟩
      simp [runsOf, hrr, hm]

theorem runsOf_cons_eq (r : ρ) (m : Int) :
    ∀ rest : List (ρ × Int),
      runsOf ((r, m) :: rest) =
        (m, r :: (rest.takeWhile fun p => p.2 = m).map Prod.fst) ::
          runsOf (rest.dropWhile fun p => p.2 = m) := by
  intro rest
  induction rest generalizing r with
  | nil => simp [runsOf]
  | cons p rest' ih =>
    obtain ⟨r', m'⟩ := p
    by_cases hm : m' = m
    · subst hm
      show (match runsOf ((r', m') :: rest') with
        | [] => [(m', [r])]
        | (m'', rs) :: t =>
          if m' = m'' then (m', r :: rs) :: t
          else (m', [r]) :: (m'', rs) :: t) = _
      rw [ih r']
      simp [List.takeWhile_cons, List.dropWhile_cons]
    · obtain ⟨rs0, t0, hr⟩ := runsOf_cons_head r' m' rest'
      have htw : ((r', m') :: rest').takeWhile
          (fun p : ρ × Int => p.2 = m) = [] := by
        simp [List.takeWhile_cons, hm]
      have hdw : ((r', m') :: rest').dropWhile
          (fun p : ρ × Int => p.2 = m) = (r', m') :: rest' := by
        simp [List.dropWhile_cons, hm]
      rw [htw, hdw]
      show (match runsOf ((r', m') :: rest') with
        | [] => [(m, [r])]
        | (m'', rs) :: t =>
          if m = m'' then (m, r :: rs) :: t
          else (m, [r]) :: (m'', rs) :: t) = _
      rw [hr]
      show (if m = m' then (m, r :: (r' :: rs0)) :: t0
        else (m, [r]) :: (m', r' :: rs0) :: t0) = _
      rw [if_neg fun hc => hm hc.symm]
      simp

/-- The declarative splice: walk the runs in order; a positive run is
replaced by all rows of the next transformed group; a non-positive run
keeps its own rows. -/
def spliceD : List (Int × List (UArr α)) → List (UArr α) → List (UArr α)
  | [], _ => []
  | (m, rs) :: rest, grows =>
    if m > 0 then
      (grows.headD ⟨[0], []⟩).rows ++ spliceD rest grows.tail
    else rs ++ spliceD rest grows

/-! ## Basic lemmas about the embedding -/

theorem chunksExact_length (sz : Nat) :
    ∀ (n : Nat) (d : List α), (chunksExact sz n d).length = n := by
  intro n
  induction n with
  | zero => intro d; rfl
  | succ k ih => intro d; simp [chunksExact, ih]

theorem chunksExact_flatten (sz : Nat) :
    ∀ (n : Nat) (d : List α), d.length = n * sz →
      (chunksExact sz n d).flatten = d := by
  intro n
  induction n with
  | zero =>
    intro d h
    simp only [Nat.zero_mul] at h
    cases d with
    | nil => rfl
    | cons x xs => simp at h
  | succ k ih =>
    intro d h
    simp only [chunksExact, List.flatten_cons]
    rw [ih (d.drop sz)
      (by simp only [List.length_drop, h, Nat.succ_mul]; omega)]
    exact List.take_append_drop sz d

theorem chunksExact_mem_length (sz : Nat) :
    ∀ (n : Nat) (d : List α), d.length = n * sz →
      ∀ c ∈ chunksExact sz n d, c.length = sz := by
  intro n
  induction n with
  | zero => intro d _ c hc; simp [chunksExact] at hc
  | succ k ih =>
    intro d h c hc
    simp only [chunksExact, List.mem_cons] at hc
    rcases hc with rfl | hc
    · have hsz : sz ≤ d.length := by
        rw [h, Nat.succ_mul]
        exact Nat.le_add_left _ _
      simp only [List.length_take]
      omega
    · exact ih (d.drop sz)
        (by simp only [List.length_drop, h, Nat.succ_mul]; omega) c hc

theorem chunksExact_of_flatten (sz : Nat) :
    ∀ (ls : List (List α)), (∀ l ∈ ls, l.length = sz) →
      chunksExact sz ls.length ls.flatten = ls := by
  intro ls
  induction ls with
  | nil => intro _; rfl
  | cons x xs ih =>
    intro h
    have hx : x.length = sz := h x (by simp)
    simp only [List.length_cons, chunksExact, List.flatten_cons]
    rw [List.take_append_of_le_length (by omega),
      List.drop_append_of_le_length (by omega)]
    rw [show List.take sz x = x by rw [← hx]; exact List.take_length x]
    rw [show List.drop sz x = [] by rw [← hx]; exact List.drop_length x]
    rw [List.nil_append, ih fun l hl => h l (by simp [hl])]

theorem chunksExact_getElem (sz : Nat) :
    ∀ (n : Nat) (d : List α) (i : Nat), i < n →
      (chunksExact sz n d).getD i [] = (d.drop (i * sz)).take sz := by
  intro n
  induction n with
  | zero => intro d i hi; omega
  | succ k ih =>
    intro d i hi
    cases i with
    | zero => simp [chunksExact]
    | succ j =>
      simp only [chunksExact, List.getD_cons_succ]
      rw [ih (d.drop sz) j (by omega), List.drop_drop]
      congr 2
      ring

theorem shapesZipEq_iff (as_ bs : List Nat) :
    UArr.shapesZipEq as_ bs = true ↔
      (∃ t, bs = as_ ++ t) ∨ (∃ t, as_ = bs ++ t) := by
  induction as_ generalizing bs with
  | nil =>
    simp [UArr.shapesZipEq]
  | cons a rest ih =>
    cases bs with
    | nil => simp [UArr.shapesZipEq]
    | cons b bs' =>
      simp only [UArr.shapesZipEq, List.zip_cons_cons, List.all_cons,
        Bool.and_eq_true, beq_iff_eq]
      rw [show (List.all (rest.zip bs') fun p => p.1 == p.2) =
        UArr.shapesZipEq rest bs' from rfl, ih]
      constructor
      · rintro ⟨rfl, ⟨t, rfl⟩ | ⟨t, rfl⟩⟩
        · exact Or.inl ⟨t, rfl⟩
        · exact Or.inr ⟨t, rfl⟩
      · rintro (⟨t, ht⟩ | ⟨t, ht⟩)
        · cases ht; exact ⟨rfl, Or.inl ⟨t, rfl⟩⟩
        · cases ht; exact ⟨rfl, Or.inr ⟨t, rfl⟩⟩

theorem listStarts_iff (l p : List Nat) :
    listStarts l p = true ↔ ∃ t, l = p ++ t := by
  induction p generalizing l with
  | nil => simp [listStarts]
  | cons b bs ih =>
    cases l with
    | nil =>
      simp only [listStarts, List.cons_append]
      constructor
      · intro h; cases h
      · rintro ⟨t, ht⟩; cases ht
    | cons a as_ =>
      simp only [listStarts, Bool.and_eq_true, beq_iff_eq, ih,
        List.cons_append, List.cons.injEq]
      constructor
      · rintro ⟨rfl, t, rfl⟩; exact ⟨t, rfl, rfl⟩
      · rintro ⟨t, rfl, rfl⟩; exact ⟨rfl, t, rfl⟩

theorem insertRow_sum_length (le : List α → List α → Bool) (x : List α) :
    ∀ ys : List (List α),
      ((insertRow le x ys).map List.length).sum =
        x.length + ((ys.map List.length).sum) := by
  intro ys
  induction ys with
  | nil => simp [insertRow]
  | cons y ys ih =>
    by_cases h : le x y
    · simp [insertRow, h]
    · simp [insertRow, h, ih]
      omega

theorem insertionSortRows_sum_length (le : List α → List α → Bool) :
    ∀ ls : List (List α),
      ((insertionSortRows le ls).map List.length).sum =
        ((ls.map List.length).sum) := by
  intro ls
  induction ls with
  | nil => rfl
  | cons x xs ih => simp [insertionSortRows, insertRow_sum_length, ih]

theorem flatten_length_eq_sum (ls : List (List α)) :
    ls.flatten.length = (ls.map List.length).sum := by
  induction ls with
  | nil => rfl
  | cons x xs ih => simp [ih]

/-! ## Lemmas about buckets and `group_groups` -/

theorem getD_set_self (l : List β) (i : Nat) (x d : β) (h : i < l.length) :
    (l.set i x).getD i d = x := by
  rw [List.getD_eq_getElem?_getD, List.getElem?_set_self (by omega)]
  rfl

theorem getD_set_ne (l : List β) (i j : Nat) (x d : β) (h : i ≠ j) :
    (l.set i x).getD j d = l.getD j d := by
  rw [List.getD_eq_getElem?_getD, List.getElem?_set_ne h,
    ← List.getD_eq_getElem?_getD]

theorem range_map_getD (d : β) :
    ∀ l : List β, (List.range l.length).map (fun i => l.getD i d) = l := by
  intro l
  induction l with
  | nil => rfl
  | cons x xs ih =>
    rw [List.length_cons, List.range_succ_eq_map, List.map_cons,
      List.map_map]
    refine congrArg₂ _ rfl ?_
    have : ((fun i => (x :: xs).getD i d) ∘ Nat.succ) =
        fun i => xs.getD i d := by
      funext i
      rfl
    rw [this, ih]

theorem maxList_spec :
    ∀ (l : List Int) (mx : Int), maxList l = some mx →
      (∀ x ∈ l, x ≤ mx) ∧ mx ∈ l := by
  intro l
  induction l with
  | nil => intro mx h; cases h
  | cons x xs ih =>
    intro mx h
    simp only [maxList] at h
    cases hxs : maxList xs with
    | none =>
      rw [hxs] at h
      simp only [Option.elim] at h
      cases xs with
      | nil =>
        cases h
        exact ⟨by simp, by simp⟩
      | cons y ys => simp [maxList] at hxs
    | some mx' =>
      rw [hxs] at h
      simp only [Option.elim] at h
      cases h
      obtain ⟨hle, hmem⟩ := ih mx' hxs
      constructor
      · intro z hz
        rcases List.mem_cons.mp hz with rfl | hz
        · exact le_max_left _ _
        · exact le_trans (hle z hz) (le_max_right _ _)
      · rcases max_choice x mx' with hc | hc <;> rw [hc]
        · exact List.mem_cons_self _ _
        · exact List.mem_cons_of_mem _ hmem

/-- The in-order contents of bucket `k`: the second components of the
pairs whose integer index equals `k`. -/
def bucketOf (ps : List (Int × ρ)) (k : Nat) : List ρ :=
  (ps.filter fun p => p.1 == (k : Int)).map Prod.snd

theorem buildBuckets_length (ps : List (Int × ρ)) :
    ∀ init : List (List ρ), (buildBuckets init ps).length = init.length := by
  induction ps with
  | nil => intro init; rfl
  | cons p ps ih =>
    intro init
    show (buildBuckets (if p.1 ≥ 0 then pushAt init p.1.toNat p.2 else init)
      ps).length = init.length
    rw [ih]
    unfold pushAt
    split <;> simp

theorem buildBuckets_getD (ps : List (Int × ρ)) :
    ∀ (init : List (List ρ)) (k : Nat), k < init.length →
      (∀ p ∈ ps, 0 ≤ p.1 → p.1.toNat < init.length) →
      (buildBuckets init ps).getD k [] = init.getD k [] ++ bucketOf ps k := by
  induction ps with
  | nil =>
    intro init k _ _
    simp [buildBuckets, bucketOf]
  | cons p ps ih =>
    intro init k hk hbnd
    show (buildBuckets (if p.1 ≥ 0 then pushAt init p.1.toNat p.2 else init)
      ps).getD k [] = _
    by_cases hp : 0 ≤ p.1
    · have hlen : (pushAt init p.1.toNat p.2).length = init.length := by
        unfold pushAt; simp
      rw [if_pos hp, ih _ k (by omega)
        (fun q hq hq0 => by rw [hlen]; exact hbnd q (by simp [hq]) hq0)]
      by_cases hpk : p.1.toNat = k
      · subst hpk
        have : (p.1 == ((p.1.toNat : Nat) : Int)) = true := by
          simp [Int.toNat_of_nonneg hp]
        unfold pushAt bucketOf
        rw [getD_set_self _ _ _ _ hk]
        simp only [bucketOf, List.filter_cons, this, List.map_cons]
        simp
      · have : (p.1 == ((k : Nat) : Int)) = false := by
          simp only [beq_eq_false_iff_ne, ne_eq]
          intro hcontr
          apply hpk
          rw [hcontr]
          simp
        unfold pushAt bucketOf
        rw [getD_set_ne _ _ _ _ _ hpk]
        simp only [bucketOf, List.filter_cons, this]
        simp
    · have hneg : (p.1 == ((k : Nat) : Int)) = false := by
        simp only [beq_eq_false_iff_ne, ne_eq]
        intro hcontr
        apply hp
        rw [hcontr]
        exact Int.ofNat_nonneg k
      rw [if_neg hp, ih _ k hk (fun q hq hq0 => hbnd q (by simp [hq]) hq0)]
      simp only [bucketOf, List.filter_cons, hneg]
      simp

/-- Closed form of `group_groups` when at least one index exists: one
bucket per integer from `0` to `max(max_index, 0)`, bucket `k` holding
(in original order) the slices whose index is `k`, each stacked. -/
theorem groupGroups_eq (a : UArr α) (idx : UArr Int)
    (hpre : listStarts a.shape idx.shape = true) (mx : Int)
    (hmx : maxList idx.data = some mx) :
    groupGroups a idx =
      .ok ((List.range ((max mx 0).toNat + 1)).map fun k =>
        fromRowArraysInfallible
          (bucketOf (idx.data.zip (slicesOf a idx)) k)) := by
  unfold groupGroups
  rw [if_neg (by simp [hpre]), hmx]
  have hlen : (buildBuckets
      (List.replicate ((max mx 0).toNat + 1) ([] : List (UArr α)))
      (idx.data.zip (slicesOf a idx))).length = (max mx 0).toNat + 1 := by
    rw [buildBuckets_length]
    simp
  have hbnd : ∀ p ∈ idx.data.zip (slicesOf a idx), 0 ≤ p.1 →
      p.1.toNat < (List.replicate ((max mx 0).toNat + 1)
        ([] : List (UArr α))).length := by
    intro p hp hp0
    have hmem : p.1 ∈ idx.data := List.of_mem_zip hp |>.1
    have hle := (maxList_spec idx.data mx hmx).1 p.1 hmem
    simp only [List.length_replicate]
    omega
  have key : buildBuckets
      (List.replicate ((max mx 0).toNat + 1) ([] : List (UArr α)))
      (idx.data.zip (slicesOf a idx)) =
      (List.range ((max mx 0).toNat + 1)).map fun k =>
        bucketOf (idx.data.zip (slicesOf a idx)) k := by
    conv_lhs => rw [← range_map_getD ([] : List (UArr α)) (buildBuckets _ _)]
    rw [hlen]
    apply List.map_congr_left
    intro k hk
    rw [buildBuckets_getD _ _ k (by simp; exact List.mem_range.mp hk) hbnd]
    simp
  simp only [key, List.map_map]
  rfl

/-! ## Lemmas about the partition fold -/

theorem partStep_enter (gs : List (List ρ)) (last : Int) (r : ρ) (m : Int)
    (hm : 0 < m) (hne : m ≠ last) :
    partStep (gs, last) (r, m) = .ok (gs ++ [[r]], m) := by
  unfold partStep
  dsimp only
  rw [if_pos hm, if_pos hne]
  simp [List.getLast?_concat, List.dropLast_concat]

theorem partStep_cont (gs : List (List ρ)) (cur : List ρ) (r : ρ) (m : Int)
    (hm : 0 < m) :
    partStep (gs ++ [cur], m) (r, m) = .ok (gs ++ [cur ++ [r]], m) := by
  unfold partStep
  dsimp only
  rw [if_pos hm, if_neg (by simp)]
  simp [List.getLast?_concat, List.dropLast_concat]

theorem partStep_skip (gs : List (List ρ)) (last : Int) (r : ρ) (m : Int)
    (hm : ¬ 0 < m) :
    partStep (gs, last) (r, m) = .ok (gs, m) := by
  unfold partStep
  dsimp only
  rw [if_neg hm]

theorem partFold_posrun (m : Int) (hm : 0 < m) :
    ∀ (run : List (ρ × Int)), (∀ p ∈ run, p.2 = m) →
    ∀ (gs : List (List ρ)) (cur : List ρ),
      run.foldlM partStep (gs ++ [cur], m) =
        .ok (gs ++ [cur ++ run.map Prod.fst], m) := by
  intro run
  induction run with
  | nil =>
    intro _ gs cur
    simp only [List.foldlM_nil, List.map_nil, List.append_nil]
    rfl
  | cons p run ih =>
    intro h gs cur
    obtain ⟨r, m'⟩ := p
    have hm' : m' = m := h (r, m') (by simp)
    rw [hm']
    rw [List.foldlM_cons, partStep_cont gs cur r m hm]
    show run.foldlM partStep (gs ++ [cur ++ [r]], m) = _
    rw [ih (fun q hq => h q (by simp [hq])) gs (cur ++ [r])]
    simp

theorem partFold_nonposrun (m : Int) (hm : ¬ 0 < m) :
    ∀ (run : List (ρ × Int)), (∀ p ∈ run, p.2 = m) →
    ∀ gs : List (List ρ),
      run.foldlM partStep (gs, m) = .ok (gs, m) := by
  intro run
  induction run with
  | nil =>
    intro _ gs
    rfl
  | cons p run ih =>
    intro h gs
    obtain ⟨r, m'⟩ := p
    have hm' : m' = m := h (r, m') (by simp)
    rw [hm']
    rw [List.foldlM_cons, partStep_skip gs m r m hm]
    show run.foldlM partStep (gs, m) = _
    exact ih (fun q hq => h q (by simp [hq])) gs

/-- The marker loop of `partition_groups`, run from a state whose
`last_marker` differs from the first marker, produces exactly the
positive maximal runs, appended to the groups accumulated so far. -/
theorem partFold_runs (n : Nat) :
    ∀ (ps : List (ρ × Int)), ps.length ≤ n →
    ∀ (gs : List (List ρ)) (last : Int),
      (∀ r m, ps.head? = some (r, m) → m ≠ last) →
      ∃ last', ps.foldlM partStep (gs, last) =
        .ok (gs ++ ((runsOf ps).filter fun q => 0 < q.1).map Prod.snd,
          last') := by
  induction n with
  | zero =>
    intro ps hlen gs last _
    have hnil : ps = [] := List.eq_nil_of_length_eq_zero (by omega)
    subst hnil
    refine ⟨last, ?_⟩
    simp only [runsOf, List.filter_nil, List.map_nil, List.append_nil,
      List.foldlM_nil]
    rfl
  | succ n ih =>
    intro ps hlen gs last hhead
    cases ps with
    | nil =>
      refine ⟨last, ?_⟩
      simp only [runsOf, List.filter_nil, List.map_nil, List.append_nil,
        List.foldlM_nil]
      rfl
    | cons p rest =>
      obtain ⟨r, m⟩ := p
      have hne : m ≠ last := hhead r m rfl
      have hlenrest : (rest.dropWhile fun q => q.2 = m).length ≤ n := by
        have h1 := dropWhile_len_le (fun q : ρ × Int => decide (q.2 = m)) rest
        simp only [List.length_cons] at hlen
        omega
      have hnext : ∀ r' m',
          (rest.dropWhile fun q => q.2 = m).head? = some (r', m') →
          m' ≠ m := by
        intro r' m' hh
        have h2 := List.head?_dropWhile_not
          (fun q : ρ × Int => decide (q.2 = m)) rest
        rw [hh] at h2
        simpa using h2
      have hrun : ∀ q ∈ rest.takeWhile fun q => q.2 = m, q.2 = m := by
        intro q hq
        simpa using List.mem_takeWhile_imp hq
      by_cases hm : 0 < m
      · obtain ⟨last', hrec⟩ := ih (rest.dropWhile fun q => q.2 = m)
          hlenrest
          (gs ++ [[r] ++ (rest.takeWhile fun q => q.2 = m).map Prod.fst])
          m (fun r' m' hh => hnext r' m' hh)
        refine ⟨last', ?_⟩
        rw [List.foldlM_cons, partStep_enter gs last r m hm hne]
        show rest.foldlM partStep (gs ++ [[r]], m) = _
        conv_lhs =>
          rw [← List.takeWhile_append_dropWhile
            (fun q : ρ × Int => decide (q.2 = m)) rest]
        rw [List.foldlM_append,
          partFold_posrun m hm (rest.takeWhile fun q => q.2 = m) hrun gs [r]]
        show (rest.dropWhile fun q => q.2 = m).foldlM partStep
          (gs ++ [[r] ++
            (rest.takeWhile fun q => q.2 = m).map Prod.fst], m) = _
        rw [hrec, runsOf_cons_eq, List.filter_cons,
          if_pos (decide_eq_true hm)]
        simp [List.append_assoc]
      · obtain ⟨last', hrec⟩ := ih (rest.dropWhile fun q => q.2 = m)
          hlenrest gs m (fun r' m' hh => hnext r' m' hh)
        refine ⟨last', ?_⟩
        rw [List.foldlM_cons, partStep_skip gs last r m hm]
        show rest.foldlM partStep (gs, m) = _
        conv_lhs =>
          rw [← List.takeWhile_append_dropWhile
            (fun q : ρ × Int => decide (q.2 = m)) rest]
        rw [List.foldlM_append,
          partFold_nonposrun m hm (rest.takeWhile fun q => q.2 = m) hrun gs]
        show (rest.dropWhile fun q => q.2 = m).foldlM partStep (gs, m) = _
        rw [hrec, runsOf_cons_eq, List.filter_cons,
          if_neg (by rw [decide_eq_true_eq]; exact hm)]

/-- Closed form of `partition_groups`: when the marker count matches the
row count and the first marker is not the `isize::MAX` sentinel, the
groups are exactly the maximal runs of adjacent rows with equal positive
markers, in order, each stacked. -/
theorem partitionGroups_eq (a : UArr α) (ms : List Int)
    (hlen : ms.length = a.rowCount)
    (hfirst : ∀ m, ms.head? = some m → m ≠ isizeMax) :
    partitionGroups a ms =
      .ok (((runsOf (a.rows.zip ms)).filter fun q => 0 < q.1).map
        fun q => fromRowArraysInfallible q.2) := by
  unfold partitionGroups
  rw [if_neg (by omega)]
  have hhead : ∀ r m, (a.rows.zip ms).head? = some (r, m) → m ≠ isizeMax := by
    intro r m hh
    cases hrows : a.rows with
    | nil =>
      rw [hrows] at hh
      cases hh
    | cons r0 rs =>
      cases hms : ms with
      | nil =>
        rw [hrows, hms] at hh
        cases hh
      | cons m0 ms' =>
        rw [hrows, hms] at hh
        simp only [List.zip_cons_cons, List.head?_cons,
          Option.some.injEq, Prod.mk.injEq] at hh
        exact hh.2 ▸ hfirst m0 (by rw [hms]; rfl)
  obtain ⟨last', hfold⟩ := partFold_runs (a.rows.zip ms).length
    (a.rows.zip ms) le_rfl [] isizeMax hhead
  rw [hfold]
  refine congrArg Except.ok ?_
  show List.map fromRowArraysInfallible ([] ++ List.map Prod.snd _) = _
  rw [List.nil_append, List.map_map]
  rfl

/-! ## Lemmas about marker run-length encoding -/

/-- Run-length encoding of a marker list: each maximal run of equal
adjacent markers contributes its marker and its length. -/
def runsM : List Int → List (Int × Nat)
  | [] => []
  | m :: rest =>
    (m, 1 + (rest.takeWhile fun m' => m' = m).length) ::
      runsM (rest.dropWhile fun m' => m' = m)
termination_by l => l.length
decreasing_by
  simp only [List.length_cons]
  exact Nat.lt_succ_of_le (dropWhile_len_le _ _)

theorem mpStep_same (acc : List (Int × Nat)) (pm : Int) (c : Nat) :
    mpStep (acc ++ [(pm, c)], pm) pm = (acc ++ [(pm, c + 1)], pm) := by
  unfold mpStep
  rw [if_pos rfl]
  simp [List.getLast?_concat, List.dropLast_concat]

theorem mpStep_diff (st : List (Int × Nat) × Int) (m : Int)
    (hm : m ≠ st.2) : mpStep st m = (st.1 ++ [(m, 1)], m) := by
  unfold mpStep
  rw [if_neg hm]

theorem mpFold_run (m : Int) :
    ∀ (run : List Int), (∀ m' ∈ run, m' = m) →
    ∀ (acc : List (Int × Nat)) (c : Nat),
      run.foldl mpStep (acc ++ [(m, c)], m) =
        (acc ++ [(m, c + run.length)], m) := by
  intro run
  induction run with
  | nil =>
    intro _ acc c
    simp
  | cons m' run ih =>
    intro h acc c
    have hm' : m' = m := h m' (by simp)
    rw [hm', List.foldl_cons, mpStep_same acc m c,
      ih (fun q hq => h q (by simp [hq])) acc (c + 1)]
    have harith : c + 1 + run.length = c + (run.length + 1) := by omega
    rw [List.length_cons, harith]

theorem mpFold_runs (n : Nat) :
    ∀ (ms : List Int), ms.length ≤ n →
    ∀ (acc : List (Int × Nat)) (mlast : Int),
      (∀ m, ms.head? = some m → m ≠ mlast) →
      (ms.foldl mpStep (acc, mlast)).1 = acc ++ runsM ms := by
  induction n with
  | zero =>
    intro ms hlen acc mlast _
    have hnil : ms = [] := List.eq_nil_of_length_eq_zero (by omega)
    subst hnil
    simp [runsM]
  | succ n ih =>
    intro ms hlen acc mlast hhead
    cases ms with
    | nil => simp [runsM]
    | cons m rest =>
      have hne : m ≠ mlast := hhead m rfl
      have hlenrest : (rest.dropWhile fun m' => m' = m).length ≤ n := by
        have h1 := dropWhile_len_le (fun m' : Int => decide (m' = m)) rest
        simp only [List.length_cons] at hlen
        omega
      have hnext : ∀ m', (rest.dropWhile fun q => q = m).head? = some m' →
          m' ≠ m := by
        intro m' hh
        have h2 := List.head?_dropWhile_not
          (fun q : Int => decide (q = m)) rest
        rw [hh] at h2
        simpa using h2
      have hrun : ∀ q ∈ rest.takeWhile fun q => q = m, q = m := by
        intro q hq
        simpa using List.mem_takeWhile_imp hq
      rw [List.foldl_cons, mpStep_diff (acc, mlast) m hne]
      conv_lhs =>
        rw [← List.takeWhile_append_dropWhile
          (fun q : Int => decide (q = m)) rest]
      rw [List.foldl_append]
      have hstep := mpFold_run m (rest.takeWhile fun q => q = m) hrun acc 1
      rw [hstep, ih (rest.dropWhile fun q => q = m) hlenrest
        (acc ++ [(m, 1 + (rest.takeWhile fun q => q = m).length)]) m hnext]
      simp only [runsM, List.append_assoc, List.cons_append,
        List.nil_append]

/-- The source's `marker_partitions` loop computes exactly the
run-length encoding of the marker list. -/
theorem markerParts_eq_runsM (ms : List Int) : markerParts ms = runsM ms := by
  cases ms with
  | nil => simp [markerParts, runsM]
  | cons m0 rest =>
    show (rest.foldl mpStep ([(m0, 1)], m0)).1 = _
    rw [show ([(m0, 1)] : List (Int × Nat)) = [] ++ [(m0, 1)] from rfl]
    conv_lhs =>
      rw [← List.takeWhile_append_dropWhile
        (fun q : Int => decide (q = m0)) rest]
    rw [List.foldl_append,
      mpFold_run m0 (rest.takeWhile fun q => q = m0)
        (fun q hq => by simpa using List.mem_takeWhile_imp hq) [] 1,
      mpFold_runs (rest.dropWhile fun q => q = m0).length
        (rest.dropWhile fun q => q = m0) le_rfl _ m0
        (by
          intro m' hh
          have h2 := List.head?_dropWhile_not
            (fun q : Int => decide (q = m0)) rest
          rw [hh] at h2
          simpa using h2)]
    simp only [runsM, List.nil_append, List.cons_append]

theorem runsM_eq_runsOf (n : Nat) :
    ∀ (ps : List (ρ × Int)), ps.length ≤ n →
      runsM (ps.map Prod.snd) =
        (runsOf ps).map fun q => (q.1, q.2.length) := by
  induction n with
  | zero =>
    intro ps hlen
    have hnil : ps = [] := List.eq_nil_of_length_eq_zero (by omega)
    subst hnil
    simp [runsM, runsOf]
  | succ n ih =>
    intro ps hlen
    cases ps with
    | nil => simp [runsM, runsOf]
    | cons p rest =>
      obtain ⟨r, m⟩ := p
      have htw : (rest.map Prod.snd).takeWhile (fun m' => m' = m) =
          (rest.takeWhile fun q => q.2 = m).map Prod.snd := by
        rw [List.takeWhile_map]
        rfl
      have hdw : (rest.map Prod.snd).dropWhile (fun m' => m' = m) =
          (rest.dropWhile fun q => q.2 = m).map Prod.snd := by
        rw [List.dropWhile_map]
        rfl
      have hlenrest : (rest.dropWhile fun q => q.2 = m).length ≤ n := by
        have h1 := dropWhile_len_le
          (fun q : ρ × Int => decide (q.2 = m)) rest
        simp only [List.length_cons] at hlen
        omega
      show runsM (m :: rest.map Prod.snd) = _
      rw [runsOf_cons_eq]
      simp only [runsM, htw, hdw,
        ih (rest.dropWhile fun q => q.2 = m) hlenrest, List.map_cons]
      simp
      omega

theorem runsOf_flatten (n : Nat) :
    ∀ (ps : List (ρ × Int)), ps.length ≤ n →
      ((runsOf ps).map Prod.snd).flatten = ps.map Prod.fst := by
  induction n with
  | zero =>
    intro ps hlen
    have hnil : ps = [] := List.eq_nil_of_length_eq_zero (by omega)
    subst hnil
    simp [runsOf]
  | succ n ih =>
    intro ps hlen
    cases ps with
    | nil => simp [runsOf]
    | cons p rest =>
      obtain ⟨r, m⟩ := p
      have hlenrest : (rest.dropWhile fun q => q.2 = m).length ≤ n := by
        have h1 := dropWhile_len_le
          (fun q : ρ × Int => decide (q.2 = m)) rest
        simp only [List.length_cons] at hlen
        omega
      rw [runsOf_cons_eq]
      simp only [List.map_cons, List.flatten_cons,
        ih (rest.dropWhile fun q => q.2 = m) hlenrest,
        List.cons_append, List.cons.injEq, true_and]
      rw [← List.map_append, List.takeWhile_append_dropWhile]

/-! ## Lemmas about rows and reassembly -/

theorem rows_length (a : UArr α) : a.rows.length = a.rowCount := by
  obtain ⟨sh, d⟩ := a
  cases sh with
  | nil => rfl
  | cons n rest =>
    simp [UArr.rows, UArr.rowCount, chunksExact_length]

theorem rows_stack (sh : List Nat) (gs : List (UArr α))
    (hsh : ∀ g ∈ gs, g.shape = sh)
    (hlen : ∀ g ∈ gs, g.data.length = sh.prod) :
    (⟨gs.length :: sh, (gs.map UArr.data).flatten⟩ : UArr α).rows = gs := by
  show (chunksExact sh.prod gs.length ((gs.map UArr.data).flatten)).map
    (fun d => (⟨sh, d⟩ : UArr α)) = gs
  rw [show gs.length = (gs.map UArr.data).length by simp]
  rw [chunksExact_of_flatten sh.prod (gs.map UArr.data) (by
    intro l hl
    obtain ⟨g, hg, rfl⟩ := List.mem_map.mp hl
    exact hlen g hg)]
  rw [List.map_map]
  have hid : ∀ g ∈ gs, ((fun d => (⟨sh, d⟩ : UArr α)) ∘ UArr.data) g =
      id g := by
    intro g hg
    obtain ⟨gsh, gd⟩ := g
    simp only [Function.comp, id, UArr.mk.injEq]
    exact ⟨(hsh ⟨gsh, gd⟩ hg).symm, trivial⟩
  rw [List.map_congr_left hid, List.map_id]

theorem fromRowValuesE_uniform (sh : List Nat) (rs : List (UArr α))
    (hne : rs ≠ []) (hsh : ∀ r ∈ rs, r.shape = sh) :
    fromRowValuesE rs =
      .ok ⟨rs.length :: sh, (rs.map UArr.data).flatten⟩ := by
  cases rs with
  | nil => cases hne rfl
  | cons r rs =>
    have hcond : (rs.all fun x => x.shape = r.shape) = true := by
      rw [List.all_eq_true]
      intro x hx
      simp [hsh x (by simp [hx]), hsh r (by simp)]
    show (if rs.all fun x => x.shape = r.shape then _ else _) = _
    rw [if_pos hcond, hsh r (by simp)]

theorem fromRowValuesE_ok (rs : List (UArr α)) (v : UArr α)
    (h : fromRowValuesE rs = .ok v) :
    (rs = [] ∧ v = ⟨[0], []⟩) ∨
    (rs ≠ [] ∧ (∀ r ∈ rs, r.shape = v.shape.tail) ∧
      v = ⟨rs.length :: v.shape.tail, (rs.map UArr.data).flatten⟩) := by
  cases rs with
  | nil =>
    left
    refine ⟨rfl, ?_⟩
    have : (Except.ok (⟨[0], []⟩ : UArr α) : Except UErr (UArr α)) =
        .ok v := h
    cases this
    rfl
  | cons r rs =>
    right
    have h' : (if (rs.all fun x => x.shape = r.shape) = true then
        (Except.ok ⟨(r :: rs).length :: r.shape,
          ((r :: rs).map UArr.data).flatten⟩ : Except UErr (UArr α))
      else .error .shapeMismatch) = .ok v := h
    by_cases hc : (rs.all fun x => x.shape = r.shape) = true
    · rw [if_pos hc] at h'
      cases h'
      refine ⟨by simp, ?_, rfl⟩
      intro x hx
      rcases List.mem_cons.mp hx with rfl | hx
      · rfl
      · have hall := List.all_eq_true.mp hc x hx
        simpa using hall
    · rw [if_neg hc] at h'
      cases h'

theorem rows_fromRowArrays (sh : List Nat) (b : List (UArr α))
    (hsh : ∀ g ∈ b, g.shape = sh)
    (hlen : ∀ g ∈ b, g.data.length = sh.prod) :
    (fromRowArraysInfallible b).rows = b := by
  cases b with
  | nil => rfl
  | cons r rs =>
    show (⟨(r :: rs).length :: r.shape,
      ((r :: rs).map UArr.data).flatten⟩ : UArr α).rows = r :: rs
    exact rows_stack r.shape (r :: rs)
      (fun g hg => by rw [hsh g hg, hsh r (by simp)])
      (fun g hg => by rw [hlen g hg, hsh r (by simp)])

theorem mapM_rowE_run (orig : UArr α) :
    ∀ (rrows : List (UArr α)) (off : Nat) (z : List (UArr α)),
      orig.rows.drop off = rrows ++ z →
      (List.range' off rrows.length).mapM (fun i => orig.rowE i) =
        .ok rrows := by
  intro rrows
  induction rrows with
  | nil =>
    intro off z h
    rfl
  | cons r rr ih =>
    intro off z h
    have hget : orig.rows.get? off = some r := by
      rw [List.get?_eq_getElem?]
      have h0 : (orig.rows.drop off)[0]? = some r := by
        rw [h]
        simp
      rw [List.getElem?_drop] at h0
      simpa using h0
    have hdrop1 : orig.rows.drop (off + 1) = rr ++ z := by
      have h2 : (orig.rows.drop off).drop 1 = rr ++ z := by
        rw [h]
        rfl
      rw [List.drop_drop] at h2
      exact h2
    show ((off :: List.range' (off + 1) rr.length).mapM
      fun i => orig.rowE i) = _
    rw [List.mapM_cons]
    have hre : orig.rowE off = .ok r := by
      unfold UArr.rowE
      rw [hget]
    rw [hre, ih (off + 1) z hdrop1]
    rfl

/-- The splicing loop of `unpartition_part2` equals the declarative
splice over the run decomposition. -/
theorem unpartSplice_eq (orig : UArr α) :
    ∀ (rs : List (Int × List (UArr α))) (grows : List (UArr α)) (off : Nat),
      (rs.filter fun q => 0 < q.1).length = grows.length →
      orig.rows.drop off = (rs.map Prod.snd).flatten →
      unpartSplice orig (rs.map fun q => (q.1, q.2.length)) grows off =
        .ok (spliceD rs grows) := by
  intro rs
  induction rs with
  | nil =>
    intro grows off _ _
    rfl
  | cons q rs ih =>
    obtain ⟨m, rrows⟩ := q
    intro grows off hcnt hdrop
    have hdrop' : orig.rows.drop (off + rrows.length) =
        (rs.map Prod.snd).flatten := by
      have h1 : (orig.rows.drop off).drop rrows.length =
          (rs.map Prod.snd).flatten := by
        rw [hdrop]
        simp only [List.map_cons, List.flatten_cons]
        rw [List.drop_append_of_le_length le_rfl]
        simp
      rw [List.drop_drop] at h1
      exact h1
    by_cases hm : 0 < m
    · cases grows with
      | nil =>
        exfalso
        rw [List.filter_cons, if_pos (decide_eq_true hm)] at hcnt
        simp at hcnt
      | cons g grows' =>
        have hcnt' : (rs.filter fun q => 0 < q.1).length =
            grows'.length := by
          rw [List.filter_cons, if_pos (decide_eq_true hm)] at hcnt
          simpa using hcnt
        show unpartSplice orig ((m, rrows.length) ::
          rs.map fun q => (q.1, q.2.length)) (g :: grows') off = _
        unfold unpartSplice
        rw [if_pos hm]
        show (do
          let tl ← unpartSplice orig (rs.map fun q => (q.1, q.2.length))
            grows' (off + rrows.length)
          pure (g.rows ++ tl) : Except UErr _) = _
        rw [ih grows' (off + rrows.length) hcnt' hdrop']
        show Except.ok (g.rows ++ spliceD rs grows') = _
        simp [spliceD, hm]
    · have hcnt' : (rs.filter fun q => 0 < q.1).length = grows.length := by
        rwa [List.filter_cons,
          if_neg (by rw [decide_eq_true_eq]; exact hm)] at hcnt
      have hmine : orig.rows.drop off = rrows ++ (rs.map Prod.snd).flatten := by
        simpa using hdrop
      show unpartSplice orig ((m, rrows.length) ::
        rs.map fun q => (q.1, q.2.length)) grows off = _
      unfold unpartSplice
      rw [if_neg hm]
      show (do
        let mine ← (List.range' off rrows.length).mapM fun i => orig.rowE i
        let tl ← unpartSplice orig (rs.map fun q => (q.1, q.2.length))
          grows (off + rrows.length)
        pure (mine ++ tl) : Except UErr _) = _
      rw [mapM_rowE_run orig rrows off ((rs.map Prod.snd).flatten) hmine,
        ih grows (off + rrows.length) hcnt' hdrop']
      show Except.ok (rrows ++ spliceD rs grows) = _
      simp [spliceD, hm]

/-- Splicing the stacked positive runs back between the non-positive
runs reproduces all rows in order. -/
theorem spliceD_id (sh : List Nat) :
    ∀ rs : List (Int × List (UArr α)),
      (∀ q ∈ rs, ∀ r ∈ q.2, r.shape = sh ∧ r.data.length = sh.prod) →
      spliceD rs ((rs.filter fun q => 0 < q.1).map fun q =>
        fromRowArraysInfallible q.2) = (rs.map Prod.snd).flatten := by
  intro rs
  induction rs with
  | nil =>
    intro _
    rfl
  | cons q rs ih =>
    obtain ⟨m, rrows⟩ := q
    intro h
    by_cases hm : 0 < m
    · rw [List.filter_cons, if_pos (decide_eq_true hm)]
      simp only [List.map_cons, spliceD, List.flatten_cons,
        List.headD_cons, List.tail_cons]
      rw [if_pos hm]
      rw [rows_fromRowArrays sh rrows
        (fun r hr => (h (m, rrows) (by simp) r hr).1)
        (fun r hr => (h (m, rrows) (by simp) r hr).2)]
      rw [ih (fun q hq r hr => h q (by simp [hq]) r hr)]
    · rw [List.filter_cons, if_neg (by rw [decide_eq_true_eq]; exact hm)]
      simp only [spliceD, List.map_cons, List.flatten_cons]
      rw [if_neg hm]
      rw [ih (fun q hq r hr => h q (by simp [hq]) r hr)]

/-! ## Lemmas about the collapse map arm -/

instance : Inhabited (UArr α) := ⟨⟨[], []⟩⟩

/-- One output-sequence update of the pop loop. -/
def appendAt (rows : List (List V)) (i : Nat) (v : V) : List (List V) :=
  rows.set i ((rows.getD i []) ++ [v])

/-- Appending a block of popped values to consecutive output
sequences. -/
def updateFrom : List (List V) → Nat → List V → List (List V)
  | rows, _, [] => rows
  | rows, i, v :: vs => updateFrom (appendAt rows i v) (i + 1) vs

theorem updateFrom_length :
    ∀ (outs : List V) (rows : List (List V)) (i : Nat),
      (updateFrom rows i outs).length = rows.length := by
  intro outs
  induction outs with
  | nil => intro rows i; rfl
  | cons v vs ih =>
    intro rows i
    show (updateFrom (appendAt rows i v) (i + 1) vs).length = _
    rw [ih]
    simp [appendAt]

theorem appendAt_getD (rows : List (List V)) (i j : Nat) (v : V)
    (hi : i < rows.length) :
    (appendAt rows i v).getD j [] =
      if i = j then rows.getD j [] ++ [v] else rows.getD j [] := by
  unfold appendAt
  by_cases hij : i = j
  · subst hij
    rw [if_pos rfl, getD_set_self _ _ _ _ hi]
  · rw [if_neg hij, getD_set_ne _ _ _ _ _ hij]

theorem updateFrom_getD (dflt : V) :
    ∀ (outs : List V) (rows : List (List V)) (i0 j : Nat),
      i0 + outs.length ≤ rows.length →
      (updateFrom rows i0 outs).getD j [] =
        if i0 ≤ j ∧ j < i0 + outs.length then
          rows.getD j [] ++ [outs.getD (j - i0) dflt]
        else rows.getD j [] := by
  intro outs
  induction outs with
  | nil =>
    intro rows i0 j _
    rw [if_neg (by simp only [List.length_nil]; omega)]
    rfl
  | cons v vs ih =>
    intro rows i0 j hbnd
    show (updateFrom (appendAt rows i0 v) (i0 + 1) vs).getD j [] = _
    rw [ih (appendAt rows i0 v) (i0 + 1) j
      (by rw [show (appendAt rows i0 v).length = rows.length by
        simp [appendAt]]; simp at hbnd ⊢; omega)]
    rw [appendAt_getD rows i0 j v (by simp at hbnd; omega)]
    by_cases hc1 : i0 + 1 ≤ j ∧ j < i0 + 1 + vs.length
    · rw [if_pos hc1, if_neg (by omega),
        if_pos (by simp only [List.length_cons]; omega)]
      rw [show j - i0 = (j - (i0 + 1)) + 1 by omega, List.getD_cons_succ]
    · rw [if_neg hc1]
      by_cases hij : i0 = j
      · subst hij
        rw [if_pos rfl, if_pos (by simp only [List.length_cons]; omega)]
        rw [show i0 - i0 = 0 by omega, List.getD_cons_zero]
      · rw [if_neg hij, if_neg (by simp only [List.length_cons]; omega)]

theorem popLoop_run (f : FnModel V) (h1 : f.sig.args = 1) :
    ∀ (outs : List V) (rows : List (List V)) (stack : List V) (i0 : Nat),
      i0 + outs.length ≤ rows.length →
      (List.range' i0 outs.length).foldlM (popLoop f)
        (rows, outs ++ stack) = .ok (updateFrom rows i0 outs, stack) := by
  intro outs
  induction outs with
  | nil =>
    intro rows stack i0 _
    rfl
  | cons v vs ih =>
    intro rows stack i0 hbnd
    show ((i0 :: List.range' (i0 + 1) vs.length).foldlM (popLoop f)
      (rows, v :: (vs ++ stack))) = _
    rw [List.foldlM_cons]
    have hstep : popLoop f (rows, v :: (vs ++ stack)) i0 =
        .ok (appendAt rows i0 v, vs ++ stack) := by
      unfold popLoop appendAt
      dsimp only
      rw [if_pos h1, if_pos (by simp at hbnd; omega)]
    rw [hstep]
    show (List.range' (i0 + 1) vs.length).foldlM (popLoop f)
      (appendAt rows i0 v, vs ++ stack) = _
    rw [ih (appendAt rows i0 v) stack (i0 + 1)
      (by rw [show (appendAt rows i0 v).length = rows.length by
        simp [appendAt]]; simp at hbnd ⊢; omega)]
    rfl

theorem popLoop_run0 (f : FnModel V) (h0 : f.sig.args ≠ 1) :
    ∀ (idxs : List Nat) (outs : List V) (rows : List (List V))
      (stack : List V), idxs.length = outs.length →
      idxs.foldlM (popLoop f) (rows, outs ++ stack) = .ok (rows, stack) := by
  intro idxs
  induction idxs with
  | nil =>
    intro outs rows stack hlen
    have : outs = [] := List.eq_nil_of_length_eq_zero
      (by simp at hlen; omega)
    subst this
    rfl
  | cons i idxs ih =>
    intro outs rows stack hlen
    cases outs with
    | nil => simp at hlen
    | cons v vs =>
      show ((i :: idxs).foldlM (popLoop f) (rows, v :: (vs ++ stack))) = _
      rw [List.foldlM_cons]
      have hstep : popLoop f (rows, v :: (vs ++ stack)) i =
          .ok (rows, vs ++ stack) := by
        unfold popLoop
        dsimp only
        rw [if_neg h0]
      rw [hstep]
      show idxs.foldlM (popLoop f) (rows, vs ++ stack) = _
      exact ih vs rows stack (by simpa using hlen)

theorem groupBody_args1 (f : FnModel V) (k : Nat) (hsig : f.sig = ⟨1, k⟩)
    (hk : 1 ≤ k) (himpl : ∀ o g, (f.impl o [g]).length = k)
    (rows : List (List V)) (hrows : rows.length = k) (stack : List V)
    (g : V) :
    groupBody f (rows, stack) g =
      .ok (updateFrom rows 0 (f.impl none [g]), stack) := by
  unfold groupBody
  have hcall : callFn none f (g :: stack) =
      .ok (f.impl none [g] ++ stack) := by
    unfold callFn
    rw [if_neg (by rw [hsig]; simp)]
    rw [hsig]
    rfl
  rw [hcall]
  show (List.range (max f.sig.outputs 1)).foldlM (popLoop f)
    (rows, f.impl none [g] ++ stack) = _
  have hmax : max f.sig.outputs 1 = (f.impl none [g]).length := by
    rw [hsig, himpl]
    show max k 1 = k
    omega
  rw [List.range_eq_range', hmax]
  exact popLoop_run f (by rw [hsig]) (f.impl none [g]) rows stack 0
    (by rw [hrows, himpl]; omega)

theorem groupFold_args1 (f : FnModel V) (k : Nat) (hsig : f.sig = ⟨1, k⟩)
    (hk : 1 ≤ k) (himpl : ∀ o g, (f.impl o [g]).length = k) :
    ∀ (groups : List V) (rows : List (List V)) (stack : List V),
      rows.length = k →
      groups.foldlM (groupBody f) (rows, stack) =
        .ok (groups.foldl
          (fun rws g => updateFrom rws 0 (f.impl none [g])) rows, stack) := by
  intro groups
  induction groups with
  | nil =>
    intro rows stack _
    rfl
  | cons g gs ih =>
    intro rows stack hrows
    rw [List.foldlM_cons,
      groupBody_args1 f k hsig hk himpl rows hrows stack g]
    show gs.foldlM (groupBody f) (updateFrom rows 0 (f.impl none [g]),
      stack) = _
    rw [ih (updateFrom rows 0 (f.impl none [g])) stack
      (by rw [updateFrom_length]; exact hrows), List.foldl_cons]

theorem groupFold_args0 (f : FnModel V) (k : Nat) (hsig : f.sig = ⟨0, k⟩)
    (hk : 1 ≤ k) (himpl : (f.impl none []).length = k) :
    ∀ (groups : List V) (rows : List (List V)) (stack : List V),
      groups.foldlM (groupBody f) (rows, stack) =
        .ok (rows, groups.reverse ++ stack) := by
  intro groups
  induction groups with
  | nil =>
    intro rows stack
    rfl
  | cons g gs ih =>
    intro rows stack
    rw [List.foldlM_cons]
    have hbody : groupBody f (rows, stack) g = .ok (rows, g :: stack) := by
      unfold groupBody
      have hcall : callFn none f (g :: stack) =
          .ok (f.impl none [] ++ (g :: stack)) := by
        unfold callFn
        rw [if_neg (by rw [hsig]; simp)]
        rw [hsig]
        rfl
      rw [hcall]
      show (List.range (max f.sig.outputs 1)).foldlM (popLoop f)
        (rows, f.impl none [] ++ (g :: stack)) = _
      have hmax : max f.sig.outputs 1 = k := by
        rw [hsig]
        simp only []
        omega
      rw [hmax]
      exact popLoop_run0 f (by rw [hsig]; simp) (List.range k)
        (f.impl none []) rows (g :: stack) (by simp [himpl])

    rw [hbody]
    show gs.foldlM (groupBody f) (rows, g :: stack) = _
    rw [ih rows (g :: stack)]
    simp

theorem groupFold_idFn (V : Type) :
    ∀ (gs : List V) (acc : List V) (stack : List V),
      gs.foldlM (groupBody (idFn V)) ([acc], stack) =
        .ok ([acc ++ gs], stack) := by
  intro gs
  induction gs with
  | nil =>
    intro acc stack
    simp only [List.foldlM_nil, List.append_nil]
    rfl
  | cons g gs ih =>
    intro acc stack
    rw [List.foldlM_cons,
      groupBody_args1 (idFn V) 1 rfl le_rfl (fun o g => rfl) [acc] rfl
        stack g]
    show gs.foldlM (groupBody (idFn V)) (updateFrom [acc] 0 [g], stack) = _
    show gs.foldlM (groupBody (idFn V)) ([acc ++ [g]], stack) = _
    rw [ih (acc ++ [g]) stack]
    simp

/-- The map arm applied to the identity transform reassembles the
groups themselves and pushes the single result. -/
theorem collapse_idFn (V : Type) (fromRows : List V → Except UErr V)
    (gs : List V) (stack : List V) :
    collapseMapForm fromRows (idFn V) gs stack =
      match fromRows gs with
      | .ok v => .ok (v :: stack)
      | .error e => .error e := by
  unfold collapseMapForm
  show (do
    let st ← gs.foldlM (groupBody (idFn V)) ([[]], stack)
    pushResults fromRows st.1 st.2 : Except UErr (List V)) = _
  rw [groupFold_idFn V gs [] stack]
  show pushResults fromRows [[] ++ gs] stack = _
  rw [List.nil_append]
  unfold pushResults
  show ([gs].foldlM (fun stck rseq => do
    let v ← fromRows rseq
    Except.ok (v :: stck)) stack : Except UErr (List V)) = _
  cases h : fromRows gs with
  | ok v =>
    rw [List.foldlM_cons]
    rw [h]
    rfl
  | error e =>
    rw [List.foldlM_cons]
    rw [h]
    rfl

theorem getD_replicate_nil (k i : Nat) :
    (List.replicate k ([] : List V)).getD i [] = [] := by
  rw [List.getD_eq_getElem?_getD, List.getElem?_replicate]
  split <;> rfl

theorem updateFold_length (f : FnModel V) :
    ∀ (groups : List V) (rows : List (List V)),
      (groups.foldl (fun rws g => updateFrom rws 0 (f.impl none [g]))
        rows).length = rows.length := by
  intro groups
  induction groups with
  | nil => intro rows; rfl
  | cons g gs ih =>
    intro rows
    rw [List.foldl_cons, ih, updateFrom_length]

theorem updateFold_getD [Inhabited V] (f : FnModel V) (k : Nat)
    (himpl : ∀ o g, (f.impl o [g]).length = k) :
    ∀ (groups : List V) (rows : List (List V)), rows.length = k →
      ∀ j, j < k →
      (groups.foldl (fun rws g => updateFrom rws 0 (f.impl none [g]))
        rows).getD j [] =
        rows.getD j [] ++
          groups.map fun g => (f.impl none [g]).getD j default := by
  intro groups
  induction groups with
  | nil =>
    intro rows _ j _
    simp
  | cons g gs ih =>
    intro rows hrows j hj
    rw [List.foldl_cons,
      ih (updateFrom rows 0 (f.impl none [g]))
        (by rw [updateFrom_length]; exact hrows) j hj]
    rw [updateFrom_getD default (f.impl none [g]) rows 0 j
      (by rw [hrows, himpl]; omega)]
    rw [if_pos (by rw [himpl]; omega)]
    simp

/-- Closed form of the map arm for `args = 1`: each group is passed on
its own to the function with the fill masked, the `i`-th results form
the `i`-th output sequence, and the reassembled sequences are pushed
with the first on top. -/
theorem collapse_args1 [Inhabited V] (fromRows : List V → Except UErr V)
    (f : FnModel V) (k : Nat) (hsig : f.sig = ⟨1, k⟩) (hk : 1 ≤ k)
    (himpl : ∀ o g, (f.impl o [g]).length = k)
    (groups : List V) (stack : List V) :
    collapseMapForm fromRows f groups stack =
      pushResults fromRows ((List.range k).map fun i =>
        groups.map fun g => (f.impl none [g]).getD i default) stack := by
  unfold collapseMapForm
  have hrepl : List.replicate f.sig.outputs ([] : List V) =
      List.replicate k [] := by rw [hsig]
  rw [hrepl, groupFold_args1 f k hsig hk himpl groups (List.replicate k [])
    stack (by simp)]
  show pushResults fromRows (groups.foldl
    (fun rws g => updateFrom rws 0 (f.impl none [g]))
    (List.replicate k [])) stack = _
  congr 1
  have hlen2 : (groups.foldl
      (fun rws g => updateFrom rws 0 (f.impl none [g]))
      (List.replicate k [])).length = k := by
    rw [updateFold_length]
    simp
  conv_lhs =>
    rw [← range_map_getD ([] : List V) (groups.foldl
      (fun rws g => updateFrom rws 0 (f.impl none [g]))
      (List.replicate k []))]
  rw [hlen2]
  apply List.map_congr_left
  intro i hi
  rw [updateFold_getD f k himpl groups (List.replicate k []) (by simp) i
    (List.mem_range.mp hi), getD_replicate_nil]
  rfl

/-- Closed form of the map arm for `args = 0` (at least one output):
every group is still pushed and left on the stack, the function's
results are popped and discarded, and the values finally pushed are
reassembled from empty sequences. -/
theorem collapse_args0 (fromRows : List V → Except UErr V)
    (f : FnModel V) (k : Nat) (hsig : f.sig = ⟨0, k⟩) (hk : 1 ≤ k)
    (himpl : (f.impl none []).length = k)
    (groups : List V) (stack : List V) :
    collapseMapForm fromRows f groups stack =
      pushResults fromRows (List.replicate k [])
        (groups.reverse ++ stack) := by
  unfold collapseMapForm
  have hrepl : List.replicate f.sig.outputs ([] : List V) =
      List.replicate k [] := by rw [hsig]
  rw [hrepl, groupFold_args0 f k hsig hk himpl groups (List.replicate k [])
    stack]
  rfl

/-- The drawing loop of `ungroup_part2` restores the slices in their
original order, provided the per-group row state holds exactly the
in-order bucket contents and negative positions fall back to the
matching original row. -/
theorem ungroupDraw_eq (orig : UArr α) :
    ∀ (ps : List (Int × UArr α)) (st : List (List (UArr α))) (pos : Nat),
      (∀ k, k < st.length → st.getD k [] = bucketOf ps k) →
      (∀ p ∈ ps, 0 ≤ p.1 → p.1.toNat < st.length) →
      (∀ i p, ps.get? i = some p → p.1 < 0 →
        orig.rows.get? (pos + i) = some p.2) →
      ungroupDraw orig (ps.map Prod.fst) st pos = .ok (ps.map Prod.snd) := by
  intro ps
  induction ps with
  | nil =>
    intro st pos _ _ _
    rfl
  | cons p ps ih =>
    obtain ⟨i0, s0⟩ := p
    intro st pos hst hbnd hneg
    by_cases hi : 0 ≤ i0
    · have hkbnd : i0.toNat < st.length := hbnd (i0, s0) (by simp) hi
      have hbucket : st.getD i0.toNat [] =
          s0 :: bucketOf ps i0.toNat := by
        rw [hst i0.toNat hkbnd]
        unfold bucketOf
        rw [List.filter_cons, if_pos (by
          have hcast : ((i0.toNat : Nat) : Int) = i0 :=
            Int.toNat_of_nonneg hi
          rw [hcast]
          simp)]
        rfl
      have hst' : ∀ k, k < (st.set i0.toNat (bucketOf ps i0.toNat)).length →
          (st.set i0.toNat (bucketOf ps i0.toNat)).getD k [] =
            bucketOf ps k := by
        intro k hk
        rw [List.length_set] at hk
        by_cases hik : i0.toNat = k
        · subst hik
          rw [getD_set_self _ _ _ _ hkbnd]
        · rw [getD_set_ne _ _ _ _ _ hik, hst k hk]
          unfold bucketOf
          rw [List.filter_cons, if_neg (by
            intro hcontr
            rw [beq_iff_eq] at hcontr
            have hcontr' : i0 = (k : Int) := hcontr
            exact hik (by rw [hcontr']; simp))]
      have hbnd' : ∀ p ∈ ps, 0 ≤ p.1 →
          p.1.toNat < (st.set i0.toNat (bucketOf ps i0.toNat)).length := by
        intro p hp hp0
        rw [List.length_set]
        exact hbnd p (by simp [hp]) hp0
      have hneg' : ∀ i p, ps.get? i = some p → p.1 < 0 →
          orig.rows.get? (pos + 1 + i) = some p.2 := by
        intro i p hpi hp0
        have := hneg (i + 1) p (by simpa using hpi) hp0
        rwa [show pos + (i + 1) = pos + 1 + i by omega] at this
      show ungroupDraw orig (i0 :: ps.map Prod.fst) st pos = _
      unfold ungroupDraw
      rw [if_pos hi, hbucket]
      show (do
        let tl ← ungroupDraw orig (ps.map Prod.fst)
          (st.set i0.toNat (bucketOf ps i0.toNat)) (pos + 1)
        pure (s0 :: tl) : Except UErr _) = _
      rw [ih (st.set i0.toNat (bucketOf ps i0.toNat)) (pos + 1)
        hst' hbnd' hneg']
      rfl
    · have hrow : orig.rows.get? pos = some s0 := by
        have := hneg 0 (i0, s0) rfl (by omega)
        rwa [Nat.add_zero] at this
      have hst' : ∀ k, k < st.length → st.getD k [] = bucketOf ps k := by
        intro k hk
        rw [hst k hk]
        unfold bucketOf
        rw [List.filter_cons, if_neg (by
          intro hcontr
          rw [beq_iff_eq] at hcontr
          have hcontr' : i0 = (k : Int) := hcontr
          rw [hcontr'] at hi
          exact hi (Int.ofNat_nonneg k))]
      have hneg' : ∀ i p, ps.get? i = some p → p.1 < 0 →
          orig.rows.get? (pos + 1 + i) = some p.2 := by
        intro i p hpi hp0
        have := hneg (i + 1) p (by simpa using hpi) hp0
        rwa [show pos + (i + 1) = pos + 1 + i by omega] at this
      show ungroupDraw orig (i0 :: ps.map Prod.fst) st pos = _
      unfold ungroupDraw
      rw [if_neg hi]
      have hre : orig.rowE pos = .ok s0 := by
        unfold UArr.rowE
        rw [hrow]
      rw [hre]
      show (do
        let tl ← ungroupDraw orig (ps.map Prod.fst) st (pos + 1)
        pure (s0 :: tl) : Except UErr _) = _
      rw [ih st (pos + 1) hst'
        (fun p hp hp0 => hbnd p (by simp [hp]) hp0) hneg']
      rfl

theorem sum_const_of_all (c : Nat) :
    ∀ l : List Nat, (∀ x ∈ l, x = c) → l.sum = l.length * c := by
  intro l
  induction l with
  | nil => intro _; simp
  | cons x xs ih =>
    intro h
    rw [List.sum_cons, h x (by simp), ih fun y hy => h y (by simp [hy]),
      List.length_cons, Nat.succ_mul]
    omega

theorem fromRowArraysInfallible_wf (sh : List Nat) (b : List (UArr α))
    (hsh : ∀ r ∈ b, r.shape = sh)
    (hlen : ∀ r ∈ b, r.data.length = sh.prod) :
    (fromRowArraysInfallible b).data.length =
      (fromRowArraysInfallible b).shape.prod := by
  cases b with
  | nil => simp [fromRowArraysInfallible]
  | cons r rs =>
    show ((r :: rs).map UArr.data).flatten.length =
      ((r :: rs).length :: r.shape).prod
    rw [flatten_length_eq_sum, List.prod_cons, hsh r (by simp)]
    rw [sum_const_of_all sh.prod _ (by
      intro x hx
      obtain ⟨d, hd, rfl⟩ := List.mem_map.mp hx
      obtain ⟨g, hg, rfl⟩ := List.mem_map.mp hd
      exact hlen g hg)]
    simp

theorem rows_shape_wf (V : UArr α) (n : Nat) (tail : List Nat)
    (hsh : V.shape = n :: tail) (hV : V.wf) :
    ∀ r ∈ V.rows, r.shape = tail ∧ r.data.length = tail.prod := by
  intro r hr
  have hdl : V.data.length = n * tail.prod := by
    rw [hV, hsh, List.prod_cons]
  obtain ⟨Vsh, Vd⟩ := V
  simp only at hsh
  subst hsh
  simp only [UArr.rows, List.mem_map] at hr
  obtain ⟨d, hd, rfl⟩ := hr
  exact ⟨rfl, chunksExact_mem_length tail.prod n Vd hdl d hd⟩

theorem runsOf_mem (n : Nat) :
    ∀ (ps : List (ρ × Int)), ps.length ≤ n →
      ∀ q ∈ runsOf ps, ∀ r ∈ q.2, ∃ m', (r, m') ∈ ps := by
  induction n with
  | zero =>
    intro ps hlen
    have hnil : ps = [] := List.eq_nil_of_length_eq_zero (by omega)
    subst hnil
    simp [runsOf]
  | succ n ih =>
    intro ps hlen
    cases ps with
    | nil => simp [runsOf]
    | cons p rest =>
      obtain ⟨r0, m⟩ := p
      have hlenrest : (rest.dropWhile fun q => q.2 = m).length ≤ n := by
        have h1 := dropWhile_len_le
          (fun q : ρ × Int => decide (q.2 = m)) rest
        simp only [List.length_cons] at hlen
        omega
      intro q hq r hr
      rw [runsOf_cons_eq] at hq
      rcases List.mem_cons.mp hq with rfl | hq
      · rcases List.mem_cons.mp hr with rfl | hr
        · exact ⟨m, by simp⟩
        · obtain ⟨⟨r', m'⟩, hmem, rfl⟩ := List.mem_map.mp hr
          exact ⟨m', by
            right
            exact (List.takeWhile_sublist _).subset hmem⟩
      · obtain ⟨m', hmem⟩ := ih (rest.dropWhile fun q => q.2 = m)
          hlenrest q hq r hr
        exact ⟨m', by
          right
          exact (List.dropWhile_sublist _).subset hmem⟩

section Sanity

example : (fromScalar (5 : Int)).len = 0 := rfl
example : (fromVec [1, 2, 3] : UArr Int).wf := by decide
example : ¬ (fromPair [2] (fromScalar (0 : Int))).wf := by decide
example : (⟨[2, 2], [1, 2, 3, 4]⟩ : UArr Int).rows =
    [⟨[2], [1, 2]⟩, ⟨[2], [3, 4]⟩] := by rfl

example : partitionGroups (⟨[5], [10, 20, 30, 40, 50]⟩ : UArr Int)
    [1, 1, 0, 2, 2] = .ok [⟨[2], [10, 20]⟩, ⟨[2], [40, 50]⟩] := by rfl

example : partitionGroups (⟨[6], [1, 2, 3, 4, 5, 6]⟩ : UArr Int)
    [1, 1, 2, 2, 1, 1] =
    .ok [⟨[2], [1, 2]⟩, ⟨[2], [3, 4]⟩, ⟨[2], [5, 6]⟩] := by rfl

example : partitionGroups (⟨[1], [(7 : Int)]⟩) [isizeMax] =
    .error .crash := by rfl

example : groupGroups (⟨[4], [1, 2, 3, 4]⟩ : UArr Int)
    ⟨[4], [0, 1, 0, 2]⟩ =
    .ok [⟨[2], [1, 3]⟩, ⟨[1], [2]⟩, ⟨[1], [4]⟩] := by rfl

example : groupGroups (⟨[1], [(5 : Int)]⟩) ⟨[1], [-1]⟩ =
    .ok [⟨[0], []⟩] := by rfl

example : groupIdMap (⟨[4], [1, 2, 3, 4]⟩ : UArr Int) ⟨[4], [0, 1, 0, 1]⟩ =
    .ok ⟨[2, 2], [1, 3, 2, 4]⟩ := by rfl

example : ungroupPart2 (⟨[2, 2], [1, 3, 2, 4]⟩ : UArr Int)
    ⟨[4], [0, 1, 0, 1]⟩ ⟨[4], [1, 2, 3, 4]⟩ =
    .ok ⟨[4], [1, 2, 3, 4]⟩ := by rfl

example : partitionIdMap (⟨[4], [1, 2, 3, 4]⟩ : UArr Int) [1, 1, 2, 2] =
    .ok ⟨[2, 2], [1, 2, 3, 4]⟩ := by rfl

example : unpartitionPart2 (⟨[2, 2], [1, 2, 3, 4]⟩ : UArr Int)
    [1, 1, 2, 2] ⟨[4], [1, 2, 3, 4]⟩ = .ok ⟨[4], [1, 2, 3, 4]⟩ := by rfl

example : unpartitionPart2 (⟨[2, 2], [1, 2, 3, 4]⟩ : UArr Int)
    [1, 1, 0, 2, 2] ⟨[5], [1, 2, 9, 3, 4]⟩ =
    .ok ⟨[5], [1, 2, 9, 3, 4]⟩ := by rfl

example : unpartitionPart2 (⟨[1, 2], [8, 9]⟩ : UArr Int) [1] ⟨[1], [10]⟩ =
    .ok ⟨[2], [8, 9]⟩ := by rfl

example : groupIdMap (⟨[0, 1], []⟩ : UArr Int) ⟨[0], []⟩ =
    .ok ⟨[0], []⟩ := by rfl

example : ungroupPart2 (⟨[0], []⟩ : UArr Int) ⟨[0], []⟩ ⟨[0, 1], []⟩ =
    .ok ⟨[0], []⟩ := by rfl

example : partitionIdMap (fromScalar (5 : Int)) [1] =
    .ok ⟨[1, 1], [5]⟩ := by rfl

example : unpartitionPart2 (⟨[1, 1], [5]⟩ : UArr Int) [1] (fromScalar 5) =
    .ok ⟨[1], [5]⟩ := by rfl

example : repeatStart ⟨1, 1⟩ .negInf = .ok .fixpointLoop := by rfl

example : repeatStart ⟨1, 1⟩ (.finite (-1)) = .error .domainError := by
  decide

example : repeatStart ⟨1, 1⟩ .nan = .error .domainError := by rfl

example : collapseMapForm (fun l => .ok l.sum)
    ⟨⟨0, 1⟩, fun _ _ => [7]⟩ [5, 6] ([] : List Int) =
    .ok [0, 6, 5] := by rfl

example : collapseMapForm (fun l => .ok l.sum)
    ⟨⟨1, 1⟩, fun _ xs => [xs.sum * 10]⟩ [5, 6] ([] : List Int) =
    .ok [110] := by rfl

end Sanity

/-! ## Claims C1, C3, C4, C9, C10 -/

theorem sortRows_wf (le : List α → List α → Bool) :
    ∀ a : UArr α, a.wf → (sortRows le a).wf := by
  rintro ⟨sh, d⟩ h
  cases sh with
  | nil => exact h
  | cons n rest =>
    show (⟨n :: rest,
      (insertionSortRows le (chunksExact rest.prod n d)).flatten⟩ :
        UArr α).wf
    unfold UArr.wf at h ⊢
    simp only [List.prod_cons] at h ⊢
    rw [flatten_length_eq_sum, insertionSortRows_sum_length,
      ← flatten_length_eq_sum, chunksExact_flatten rest.prod n d h]
    exact h

/-- C9 (amended): the `data.len() == product(shape)` invariant holds for
the scalar and flat-vector constructors; the raw `(shape, flat-data)`
pair constructor establishes it exactly when the given shape's product
equals the data length (it never resizes); `reshape` re-establishes it
unconditionally, and `deshape`, `normalize` and `sort` preserve it. -/
theorem c9_invariant (α : Type) (dflt x : α) (v : List α) (sh : List Nat)
    (inner a : UArr α) (p : α → Bool) (f : α → α)
    (le : List α → List α → Bool) :
    (fromScalar x).wf ∧
    (fromVec v).wf ∧
    ((fromPair sh inner).wf ↔ inner.data.length = sh.prod) ∧
    (a.wf → a.deshape.wf) ∧
    (reshapeA dflt a sh).wf ∧
    (a.wf → (normalizeM p f a).wf) ∧
    (a.wf → (sortRows le a).wf) := by
  refine ⟨by simp [fromScalar, UArr.wf], by simp [fromVec, UArr.wf],
    Iff.rfl, ?_, ?_, ?_, sortRows_wf le a⟩
  · intro h
    simpa [UArr.deshape, UArr.wf] using h
  · show (reshapeA dflt a sh).data.length = sh.prod
    simp only [reshapeA, forceLength, List.length_append,
      List.length_take, List.length_replicate]
    omega
  · intro h
    unfold normalizeM
    split
    · simpa [UArr.wf] using h
    · exact h

/-- C9 counterexample: the `(shape, flat-data)` constructor accepts a
shape whose product differs from the data length and simply installs it,
so the constructed array violates `data.len() == product(shape)`. -/
theorem c9_counterexample : ¬ (fromPair [2] (fromScalar (0 : Int))).wf := by
  decide

theorem c9_witness :
    (⟨[2], [1, 2]⟩ : UArr Int).wf ∧
      ((⟨[2], [1, 2]⟩ : UArr Int).deshape).wf :=
  ⟨by decide,
    (c9_invariant Int 0 0 [] [] ⟨[], []⟩ ⟨[2], [1, 2]⟩ (fun _ => true) id
      (fun _ _ => true)).2.2.2.1 (by decide)⟩

/-- C10 (amended): the row count reported by `Array::len` is `shape[0]`
for arrays of rank at least 1, but it is `0`, not `1`, for arrays of
rank 0 (`self.shape.first().copied().unwrap_or(0)`). -/
theorem c10_row_count (α : Type) (a : UArr α) :
    (∀ n rest, a.shape = n :: rest → a.len = n) ∧
    (a.shape = [] → a.len = 0) := by
  constructor
  · intro n rest h
    simp [UArr.len, h]
  · intro h
    simp [UArr.len, h]

/-- C10 counterexample: a scalar (the array built from an `f64`, rank 0)
has `len() == 0`, while the claim promises row count 1 for rank 0. -/
theorem c10_counterexample :
    (fromScalar (0 : Int)).rank = 0 ∧ (fromScalar (0 : Int)).len ≠ 1 := by
  decide

theorem c10_witness :
    (⟨[3, 2], [0, 0, 0, 0, 0, 0]⟩ : UArr Int).len = 3 ∧
      (fromScalar (0 : Int)).len = 0 :=
  ⟨(c10_row_count Int ⟨[3, 2], [0, 0, 0, 0, 0, 0]⟩).1 3 [2] rfl,
    (c10_row_count Int (fromScalar 0)).2 rfl⟩

/-- C3 (amended): `repeat` fails with a DomainError before calling the
function exactly for the NaN count and for finite counts that are
negative or non-integral; both infinities — including negative
infinity — pass the `is_infinite` test and select the fixpoint branch
instead, so negative infinity does NOT give a DomainError. -/
theorem c3_repeat_count (sig : Signature) (n : FCount) :
    (repeatStart sig n = .error .domainError ↔
      n = .nan ∨ ∃ q, n = .finite q ∧ (q < 0 ∨ q.den ≠ 1)) ∧
    ((n = .posInf ∨ n = .negInf) →
      repeatStart sig n ≠ .error .domainError) := by
  cases n with
  | finite q =>
    simp only [repeatStart, FCount.isInfinite, FCount.ltZero,
      FCount.fractNeZero, Bool.if_false_left]
    constructor
    · by_cases h1 : q < 0
      · simp [h1]
      · by_cases h2 : q.den = 1 <;> simp [h1, h2]
    · rintro (h | h) <;> cases h
  | posInf =>
    simp only [repeatStart, FCount.isInfinite]
    constructor
    · split_ifs <;> simp
    · intro _
      split_ifs <;> simp
  | negInf =>
    simp only [repeatStart, FCount.isInfinite]
    constructor
    · split_ifs <;> simp
    · intro _
      split_ifs <;> simp
  | nan =>
    simp [repeatStart, FCount.isInfinite, FCount.ltZero, FCount.fractNeZero]

/-- C3 counterexample: a negative-infinity repetition count does not
produce the DomainError the claim promises; `is_infinite()` holds for it
and `repeat` proceeds to the fixpoint branch (here with a `(1,1)`
function, passing both signature checks). -/
theorem c3_counterexample :
    repeatStart ⟨1, 1⟩ FCount.negInf = .ok .fixpointLoop := by decide

theorem c3_witness :
    repeatStart ⟨1, 1⟩ (.finite (-1)) = .error .domainError :=
  (c3_repeat_count ⟨1, 1⟩ (.finite (-1))).1.mpr
    (Or.inr ⟨-1, rfl, Or.inl (by norm_num)⟩)

/-- C4 (confirmed): with any composition operator for signatures, the
do-loop's validation fails with SignatureError when the condition
function has no output; otherwise, with
`copy_count = max(0, g.args - (g.outputs - 1))` and
`g_sub = (g.args, g.outputs - 1 + copy_count)`, it fails with
SignatureError exactly when the composition of `f`'s signature with
`g_sub` has `args ≠ outputs`, and proceeds to the loop otherwise. -/
theorem c4_do_signature (comp : Signature → Signature → Signature)
    (fsig gsig : Signature) :
    (gsig.outputs = 0 → doCheck comp fsig gsig = .error .signatureError) ∧
    (1 ≤ gsig.outputs →
      ∀ copyCount : Nat,
        (copyCount : Int) =
          max 0 ((gsig.args : Int) - ((gsig.outputs : Int) - 1)) →
        (doCheck comp fsig gsig = .ok () ↔
          (comp fsig ⟨gsig.args, gsig.outputs - 1 + copyCount⟩).args =
            (comp fsig ⟨gsig.args, gsig.outputs - 1 + copyCount⟩).outputs) ∧
        (doCheck comp fsig gsig = .error .signatureError ↔
          (comp fsig ⟨gsig.args, gsig.outputs - 1 + copyCount⟩).args ≠
            (comp fsig ⟨gsig.args,
              gsig.outputs - 1 + copyCount⟩).outputs)) := by
  constructor
  · intro h
    simp [doCheck, h]
  · intro hout copyCount hcc
    have hcc' : copyCount = gsig.args - (gsig.outputs - 1) := by omega
    have hsub : gsig.outputs - 1 + copyCount =
        gsig.outputs + copyCount - 1 := by omega
    subst hcc'
    rw [hsub]
    simp only [doCheck, Nat.lt_iff_add_one_le, Nat.le_zero]
    rw [if_neg (by omega)]
    constructor
    · constructor
      · intro h
        by_contra hne
        rw [if_pos hne] at h
        cases h
      · intro h
        rw [if_neg (by simpa using h)]
    · constructor
      · intro h
        by_contra hne
        rw [if_neg (by simpa using hne)] at h
        cases h
      · intro h
        rw [if_pos h]

theorem c4_witness :
    doCheck (fun f _ => f) ⟨1, 1⟩ ⟨1, 1⟩ = .ok () :=
  ((c4_do_signature (fun f _ => f) ⟨1, 1⟩ ⟨1, 1⟩).2 (by decide) 1
    (by decide)).1.mpr rfl

/-- C1 (confirmed): a pervasive binary operation on arrays A and B
succeeds exactly when one shape is an element-wise-equal prefix of the
other (this is the source's `shape_prefix_matches` test); on success the
result carries the longer of the two shapes, has as many elements as
that shape's product, and its element `i` is
`op(A[i mod len(A)], B[i mod len(B)])` over the flat data; otherwise the
operation is the ShapeMismatch error. -/
theorem c1_pervade (α β γ : Type) [Inhabited α] [Inhabited β]
    (a : UArr α) (b : UArr β) (op : α → β → γ) :
    ((∃ r, pervadeK a b op = .ok r) ↔
      (∃ t, b.shape = a.shape ++ t) ∨ (∃ t, a.shape = b.shape ++ t)) ∧
    (¬ ((∃ t, b.shape = a.shape ++ t) ∨ (∃ t, a.shape = b.shape ++ t)) →
      pervadeK a b op = .error .shapeMismatch) ∧
    (∀ r, pervadeK a b op = .ok r →
      (r.shape = a.shape ∨ r.shape = b.shape) ∧
      r.shape.length = max a.shape.length b.shape.length ∧
      r.data.length = r.shape.prod ∧
      ∀ i, i < r.data.length →
        r.data.getD i (op default default) =
          op (a.data.getD (i % a.data.length) default)
             (b.data.getD (i % b.data.length) default)) := by
  refine ⟨?_, ?_, ?_⟩
  · rw [← shapesZipEq_iff]
    unfold pervadeK
    constructor
    · rintro ⟨r, hr⟩
      by_contra h
      rw [if_neg (by simpa using h)] at hr
      cases hr
    · intro h
      rw [if_pos h]
      exact ⟨_, rfl⟩
  · rw [← shapesZipEq_iff]
    intro h
    unfold pervadeK
    rw [if_neg (by simpa using h)]
  · intro r hr
    unfold pervadeK at hr
    split at hr
    · cases hr
      constructor
      · dsimp only
        split <;> [exact Or.inr rfl; exact Or.inl rfl]
      refine ⟨?_, ?_, ?_⟩
      · dsimp only
        split <;> [skip; skip] <;> omega
      · simp
      · intro i hi
        simp only [List.length_map, List.length_range] at hi
        rw [List.getD_eq_getElem _ _ (by simpa using hi)]
        simp [hi]
    · cases hr

theorem c1_witness :
    pervadeK (⟨[2], [1, 2]⟩ : UArr Int) (⟨[2, 2], [10, 20, 30, 40]⟩ :
      UArr Int) (· + ·) = .ok ⟨[2, 2], [11, 22, 31, 42]⟩ ∧
    ((⟨[2, 2], [11, 22, 31, 42]⟩ : UArr Int).shape =
        (⟨[2], [1, 2]⟩ : UArr Int).shape ∨
      (⟨[2, 2], [11, 22, 31, 42]⟩ : UArr Int).shape =
        (⟨[2, 2], [10, 20, 30, 40]⟩ : UArr Int).shape) :=
  ⟨by rfl,
    ((c1_pervade Int Int Int ⟨[2], [1, 2]⟩ ⟨[2, 2], [10, 20, 30, 40]⟩
      (· + ·)).2.2 ⟨[2, 2], [11, 22, 31, 42]⟩ (by rfl)).1⟩

/-- C5 (amended): for a values array and a rank-1 marker list of
matching row count whose FIRST marker is not `isize::MAX` (the
initial `last_marker` sentinel), `partition_groups` produces exactly
one group per maximal run of adjacent rows with the same positive
marker value, in order — equal markers separated by a different marker
form separate groups — and every row whose marker is ≤ 0 is dropped.  A
marker list starting with `isize::MAX` instead panics
(`groups.last_mut().unwrap()` on an empty vector). -/
theorem c5_partition_groups (α : Type) (a : UArr α) (ms : List Int)
    (hlen : ms.length = a.rowCount)
    (hfirst : ms.head? ≠ some isizeMax) :
    partitionGroups a ms =
      .ok (((runsOf (a.rows.zip ms)).filter fun q => 0 < q.1).map
        fun q => fromRowArraysInfallible q.2) :=
  partitionGroups_eq a ms hlen fun _ hm hcontr => hfirst (hcontr ▸ hm)

/-- C5 counterexample: a one-row array with the single marker
`isize::MAX = 2^63 - 1` makes `partition_groups` panic (modelled as
`crash`) instead of producing the one group the claim promises: the
first marker collides with the internal sentinel, so no group is ever
opened and `groups.last_mut().unwrap()` fires on an empty vector. -/
theorem c5_counterexample :
    partitionGroups (⟨[1], [(7 : Int)]⟩ : UArr Int) [isizeMax] =
      .error .crash := by rfl

theorem c5_witness :
    partitionGroups (⟨[6], [1, 2, 3, 4, 5, 6]⟩ : UArr Int)
      [1, 1, 2, 2, 1, 1] =
      .ok [⟨[2], [1, 2]⟩, ⟨[2], [3, 4]⟩, ⟨[2], [5, 6]⟩] := by
  have h := c5_partition_groups Int ⟨[6], [1, 2, 3, 4, 5, 6]⟩
    [1, 1, 2, 2, 1, 1] (by rfl) (by decide)
  rw [h]
  rfl

/-- C6 (amended): for a values array and an integer index array whose
shape is a shape-prefix of the values' shape, `group_groups` produces
exactly `max(max_index, 0) + 1` groups when at least one index exists —
so a nonempty all-negative index array yields ONE empty group, not
zero — and exactly 0 groups when the index array is empty; each
non-negative index assigns its slice to `groups[index]`, preserving the
original relative order, and negative indices are dropped. -/
theorem c6_group_groups (α : Type) (a : UArr α) (idx : UArr Int)
    (gs : List (UArr α)) (h : groupGroups a idx = .ok gs) :
    (∃ t, a.shape = idx.shape ++ t) ∧
    (idx.data = [] → gs = []) ∧
    (∀ mx, maxList idx.data = some mx →
      gs.length = (max mx 0).toNat + 1 ∧
      ∀ k, k < gs.length →
        gs.getD k ⟨[0], []⟩ = fromRowArraysInfallible
          (bucketOf (idx.data.zip (slicesOf a idx)) k)) := by
  have hpre : listStarts a.shape idx.shape = true := by
    by_contra hc
    unfold groupGroups at h
    rw [if_pos (by simpa using hc)] at h
    cases h
  refine ⟨(listStarts_iff _ _).mp hpre, ?_, ?_⟩
  · intro hdata
    unfold groupGroups at h
    rw [if_neg (by simp [hpre]), hdata] at h
    have h' : (Except.ok ([] : List (UArr α)) : Except UErr _) = .ok gs := h
    cases h'
    rfl
  · intro mx hmx
    rw [groupGroups_eq a idx hpre mx hmx] at h
    have h' : (Except.ok ((List.range ((max mx 0).toNat + 1)).map fun k =>
        fromRowArraysInfallible
          (bucketOf (idx.data.zip (slicesOf a idx)) k)) :
        Except UErr _) = .ok gs := h
    cases h'
    constructor
    · simp
    · intro k hk
      simp only [List.length_map, List.length_range] at hk
      rw [List.getD_eq_getElem?_getD, List.getElem?_map]
      simp [List.getElem?_range, hk]

/-- C6 counterexample: a nonempty index array with only negative
indices ([-1] on a one-row array) produces ONE empty group
(`max(max_index, 0) + 1 = 1` buckets), while the claim promises 0
groups when no non-negative index exists. -/
theorem c6_counterexample :
    groupGroups (⟨[1], [(5 : Int)]⟩ : UArr Int) ⟨[1], [-1]⟩ =
      .ok [⟨[0], []⟩] ∧
    (¬ ∃ i ∈ [(-1 : Int)], 0 ≤ i) ∧
    ([(⟨[0], []⟩ : UArr Int)]).length ≠ 0 :=
  ⟨by rfl, by decide, by decide⟩

theorem c6_witness :
    ([⟨[2], [1, 3]⟩, ⟨[1], [2]⟩, ⟨[1], [4]⟩] : List (UArr Int)).length =
      (max (2 : Int) 0).toNat + 1 :=
  ((c6_group_groups Int ⟨[4], [1, 2, 3, 4]⟩ ⟨[4], [0, 1, 0, 2]⟩
    [⟨[2], [1, 3]⟩, ⟨[1], [2]⟩, ⟨[1], [4]⟩] (by rfl)).2.2 2 (by rfl)).1

/-- C7 (amended): `unpartition_part2` walks the original marker runs in
original order; for each run with marker > 0 it substitutes ALL rows of
the next transformed group for that run's original rows — with NO check
that the group's row count equals the run's length, so no
ConsistencyError is raised on a per-run mismatch — and for each run
with marker ≤ 0 it copies the original rows verbatim; the only
consistency check is that the total number of positive runs equals the
transformed array's row count. -/
theorem c7_unpartition (α : Type) (G : UArr α) (ms : List Int)
    (orig : UArr α) (hlen : ms.length = orig.rowCount) :
    (((markerParts ms).filter fun p => 0 < p.1).length ≠ G.rowCount →
      unpartitionPart2 G ms orig = .error .consistencyError) ∧
    (((markerParts ms).filter fun p => 0 < p.1).length = G.rowCount →
      unpartitionPart2 G ms orig =
        fromRowValuesE (spliceD (runsOf (orig.rows.zip ms)) G.rows)) := by
  have hms : (orig.rows.zip ms).map Prod.snd = ms :=
    List.map_snd_zip _ _ (by rw [rows_length, hlen])
  have hmp : markerParts ms =
      (runsOf (orig.rows.zip ms)).map fun q => (q.1, q.2.length) := by
    conv_lhs => rw [← hms]
    rw [markerParts_eq_runsM,
      runsM_eq_runsOf (orig.rows.zip ms).length _ le_rfl]
  constructor
  · intro hne
    unfold unpartitionPart2
    rw [if_pos hne]
  · intro hcnt
    unfold unpartitionPart2
    rw [if_neg (by simp [hcnt])]
    have hcnt' : ((runsOf (orig.rows.zip ms)).filter
        fun q => 0 < q.1).length = G.rows.length := by
      rw [rows_length]
      rw [hmp, List.filter_map] at hcnt
      simpa using hcnt
    have hdrop : orig.rows.drop 0 =
        ((runsOf (orig.rows.zip ms)).map Prod.snd).flatten := by
      rw [List.drop_zero,
        runsOf_flatten (orig.rows.zip ms).length _ le_rfl,
        List.map_fst_zip _ _ (by rw [rows_length, hlen])]
    rw [hmp, unpartSplice_eq orig (runsOf (orig.rows.zip ms)) G.rows 0
      hcnt' hdrop]
    rfl

/-- C7 counterexample: undoing a partition of the one-row array [10]
with markers [1] against a transformed group that now has TWO rows
succeeds and splices in both rows — no ConsistencyError is raised even
though the group's row count (2) differs from the run's length (1). -/
theorem c7_counterexample :
    unpartitionPart2 (⟨[1, 2], [8, 9]⟩ : UArr Int) [1] ⟨[1], [10]⟩ =
      .ok ⟨[2], [8, 9]⟩ ∧
    (Except.ok (⟨[2], [8, 9]⟩ : UArr Int) :
      Except UErr (UArr Int)) ≠ .error .consistencyError :=
  ⟨by rfl, by decide⟩

theorem c7_witness :
    unpartitionPart2 (⟨[1, 1], [9]⟩ : UArr Int) [1, 0] ⟨[2], [7, 8]⟩ =
      fromRowValuesE (spliceD
        (runsOf ((⟨[2], [7, 8]⟩ : UArr Int).rows.zip [1, 0]))
        (⟨[1, 1], [9]⟩ : UArr Int).rows) :=
  (c7_unpartition Int ⟨[1, 1], [9]⟩ [1, 0] ⟨[2], [7, 8]⟩ (by rfl)).2
    (by rfl)

/-- C8 (amended): in the map arm of `collapse_groups` (args ∈ {0, 1},
k ≥ 1 outputs), for each group in order, the group is ALWAYS pushed —
for args == 0 as well as args == 1 — and the function is called with
the ambient fill masked; the `outputs.max(1)` popped results are
collected into the k parallel output sequences only when args == 1;
when args == 0 they are discarded and the pushed groups are left on the
stack; finally the k reassembled values are pushed so that the first
declared output ends on top (for args == 0 the sequences are all
empty). -/
theorem c8_collapse_map (V : Type) [Inhabited V]
    (fromRows : List V → Except UErr V) (f : FnModel V) (k : Nat)
    (groups : List V) (stack : List V) (hk : 1 ≤ k) :
    (f.sig = ⟨1, k⟩ → (∀ o g, (f.impl o [g]).length = k) →
      collapseMapForm fromRows f groups stack =
        pushResults fromRows ((List.range k).map fun i =>
          groups.map fun g => (f.impl none [g]).getD i default) stack) ∧
    (f.sig = ⟨0, k⟩ → (f.impl none []).length = k →
      collapseMapForm fromRows f groups stack =
        pushResults fromRows (List.replicate k [])
          (groups.reverse ++ stack)) :=
  ⟨fun hsig himpl => collapse_args1 fromRows f k hsig hk himpl groups stack,
   fun hsig himpl => collapse_args0 fromRows f k hsig hk himpl groups stack⟩

/-- C8 counterexample: a function of signature (0, 1) constantly
returning 7, mapped over two groups [5, 6] (value type ℤ, reassembly =
sum): the code pushes both groups, discards the popped 7s, and ends
with stack [0, 6, 5] (an empty reassembly over the two leftover
groups), not the claim's predicted single collected result
[sum [7, 7]] = [14]. -/
theorem c8_counterexample :
    collapseMapForm (fun l => .ok l.sum) ⟨⟨0, 1⟩, fun _ _ => [7]⟩
      [5, 6] ([] : List Int) = .ok [0, 6, 5] ∧
    (Except.ok [0, 6, 5] : Except UErr (List Int)) ≠
      .ok [List.sum [7, 7]] :=
  ⟨by rfl, by decide⟩

theorem c8_witness :
    collapseMapForm (fun l => .ok l.sum)
      (⟨⟨1, 1⟩, fun _ xs => [(xs.headD 0) * 2]⟩ : FnModel Int)
      [3, 4] [] = .ok [14] := by
  have h := (c8_collapse_map Int (fun l => .ok l.sum)
    ⟨⟨1, 1⟩, fun _ xs => [(xs.headD 0) * 2]⟩ 1 [3, 4] [] le_rfl).1 rfl
    (fun o g => rfl)
  rw [h]
  rfl

/-! ## The identity-transform round trips (group/ungroup,
partition/unpartition) -/

/-- `UArr.rows` unfolded for an array whose shape is known to be a
cons. -/
theorem rows_eq_chunks (V : UArr α) (n : Nat) (tail : List Nat)
    (h : V.shape = n :: tail) :
    V.rows = (chunksExact tail.prod n V.data).map
      fun d => (⟨tail, d⟩ : UArr α) := by
  obtain ⟨sh, dd⟩ := V
  simp only at h
  subst h
  rfl

/-- With the identity transform, ungrouping the grouped value restores
`V` whenever both stages succeed, the index array is nonempty and
either rank-1 or free of negative indices. -/
theorem group_roundtrip (V : UArr α) (idx : UArr Int) (G W : UArr α)
    (hV : V.wf) (hidx : idx.wf) (hne : idx.data ≠ [])
    (hok : idx.shape.length = 1 ∨ ∀ i ∈ idx.data, 0 ≤ i)
    (h1 : groupIdMap V idx = .ok G)
    (h2 : ungroupPart2 G idx V = .ok W) : W = V := by
  have hpre : listStarts V.shape idx.shape = true := by
    by_contra hc
    unfold groupIdMap groupGroups at h1
    rw [if_pos hc] at h1
    have h' : (Except.error UErr.shapeMismatch : Except UErr (UArr α)) =
        .ok G := h1
    cases h'
  obtain ⟨rest, hVsh⟩ := (listStarts_iff V.shape idx.shape).mp hpre
  obtain ⟨mx0, hmx⟩ : ∃ mx, maxList idx.data = some mx := by
    cases hd : idx.data with
    | nil => exact absurd hd hne
    | cons x xs => exact ⟨(maxList xs).elim x (max x), rfl⟩
  have hrest : V.shape.drop idx.shape.length = rest := by
    rw [hVsh, List.drop_left]
  have hVdata : V.data.length = idx.data.length * rest.prod := by
    calc V.data.length = V.shape.prod := hV
      _ = idx.shape.prod * rest.prod := by rw [hVsh, List.prod_append]
      _ = idx.data.length * rest.prod := by rw [hidx]
  have hslen : (slicesOf V idx).length = idx.data.length := by
    unfold slicesOf
    rw [List.length_map, chunksExact_length]
  have hsl_shape : ∀ s ∈ slicesOf V idx, s.shape = rest := by
    intro s hs
    unfold slicesOf at hs
    obtain ⟨d, _, rfl⟩ := List.mem_map.mp hs
    exact hrest
  have hsl_len : ∀ s ∈ slicesOf V idx, s.data.length = rest.prod := by
    intro s hs
    unfold slicesOf at hs
    obtain ⟨d, hd, rfl⟩ := List.mem_map.mp hs
    show d.length = rest.prod
    have hc := chunksExact_mem_length (V.shape.drop idx.shape.length).prod
      idx.data.length V.data (by rw [hrest]; exact hVdata) d hd
    rwa [hrest] at hc
  have hbucket_mem : ∀ (k : Nat),
      ∀ r ∈ bucketOf (idx.data.zip (slicesOf V idx)) k,
        r ∈ slicesOf V idx := by
    intro k r hr
    unfold bucketOf at hr
    obtain ⟨p, hmem, rfl⟩ := List.mem_map.mp hr
    exact (List.of_mem_zip (List.mem_of_mem_filter hmem)).2
  have hgs_wf : ∀ k : Nat,
      (fromRowArraysInfallible
        (bucketOf (idx.data.zip (slicesOf V idx)) k)).data.length =
      (fromRowArraysInfallible
        (bucketOf (idx.data.zip (slicesOf V idx)) k)).shape.prod :=
    fun k => fromRowArraysInfallible_wf rest _
      (fun r hr => hsl_shape r (hbucket_mem k r hr))
      (fun r hr => hsl_len r (hbucket_mem k r hr))
  have hgs_rows : ∀ k : Nat,
      (fromRowArraysInfallible
        (bucketOf (idx.data.zip (slicesOf V idx)) k)).rows =
      bucketOf (idx.data.zip (slicesOf V idx)) k :=
    fun k => rows_fromRowArrays rest _
      (fun r hr => hsl_shape r (hbucket_mem k r hr))
      (fun r hr => hsl_len r (hbucket_mem k r hr))
  have hfrv : fromRowValuesE ((List.range ((max mx0 0).toNat + 1)).map
      fun k => fromRowArraysInfallible
        (bucketOf (idx.data.zip (slicesOf V idx)) k)) = .ok G := by
    unfold groupIdMap at h1
    rw [groupGroups_eq V idx hpre mx0 hmx] at h1
    have h1' : (do
        let st ← collapseMapForm fromRowValuesE (idFn (UArr α))
          ((List.range ((max mx0 0).toNat + 1)).map
            fun k => fromRowArraysInfallible
              (bucketOf (idx.data.zip (slicesOf V idx)) k)) []
        match st with
        | [g] => Except.ok g
        | _ => Except.error UErr.crash) = .ok G := h1
    rw [collapse_idFn (UArr α) fromRowValuesE _ []] at h1'
    cases hfr : fromRowValuesE ((List.range ((max mx0 0).toNat + 1)).map
        fun k => fromRowArraysInfallible
          (bucketOf (idx.data.zip (slicesOf V idx)) k)) with
    | error e =>
      rw [hfr] at h1'
      have h'' : (Except.error e : Except UErr (UArr α)) = .ok G := h1'
      cases h''
    | ok Gv =>
      rw [hfr] at h1'
      have h'' : (Except.ok Gv : Except UErr (UArr α)) = .ok G := h1'
      cases h''
      rfl
  have hgs_ne : ((List.range ((max mx0 0).toNat + 1)).map
      fun k => fromRowArraysInfallible
        (bucketOf (idx.data.zip (slicesOf V idx)) k)) ≠ [] := by
    simp
  rcases fromRowValuesE_ok _ G hfrv with ⟨hcon, _⟩ | ⟨_, hGsh, hGval⟩
  · exact absurd hcon hgs_ne
  have hGsh2 : G.shape = ((List.range ((max mx0 0).toNat + 1)).map
      fun k => fromRowArraysInfallible
        (bucketOf (idx.data.zip (slicesOf V idx)) k)).length ::
      G.shape.tail := congrArg UArr.shape hGval
  have hGrc : G.rowCount = (max mx0 0).toNat + 1 := by
    show G.shape.headD 1 = _
    rw [hGsh2]
    simp
  have hcheck : (idx.data.any fun i => decide (0 ≤ i) &&
      decide (G.rowCount ≤ i.toNat)) = false := by
    rw [List.any_eq_false]
    intro i hi
    simp only [Bool.and_eq_true, decide_eq_true_eq, not_and]
    intro h0 hle
    have hmx1 := (maxList_spec idx.data mx0 hmx).1 i hi
    have hmx2 : i.toNat ≤ (max mx0 0).toNat :=
      Int.toNat_le_toNat (le_trans hmx1 (le_max_left _ _))
    rw [hGrc] at hle
    omega
  have hGrows : G.rows = (List.range ((max mx0 0).toNat + 1)).map
      fun k => fromRowArraysInfallible
        (bucketOf (idx.data.zip (slicesOf V idx)) k) := by
    have hmain := rows_stack G.shape.tail
      ((List.range ((max mx0 0).toNat + 1)).map
        fun k => fromRowArraysInfallible
          (bucketOf (idx.data.zip (slicesOf V idx)) k))
      hGsh
      (fun g hg => by
        obtain ⟨k, hk, rfl⟩ := List.mem_map.mp hg
        rw [hgs_wf k, hGsh _ hg])
    rw [← hGval] at hmain
    exact hmain
  have hlen_st : (G.rows.map UArr.rows).length = (max mx0 0).toNat + 1 := by
    rw [hGrows]
    simp
  have hst_eq : G.rows.map UArr.rows =
      (List.range ((max mx0 0).toNat + 1)).map
        fun k => bucketOf (idx.data.zip (slicesOf V idx)) k := by
    rw [hGrows, List.map_map]
    apply List.map_congr_left
    intro k _
    exact hgs_rows k
  have hdraw : ungroupDraw V idx.data (G.rows.map UArr.rows) 0 =
      .ok (slicesOf V idx) := by
    have hfst : (idx.data.zip (slicesOf V idx)).map Prod.fst = idx.data :=
      List.map_fst_zip _ _ (by rw [hslen])
    have hsnd : (idx.data.zip (slicesOf V idx)).map Prod.snd =
        slicesOf V idx :=
      List.map_snd_zip _ _ (by rw [hslen])
    have hmain := ungroupDraw_eq V (idx.data.zip (slicesOf V idx))
      (G.rows.map UArr.rows) 0
      (by
        intro k hk
        rw [hlen_st] at hk
        rw [hst_eq, List.getD_eq_getElem?_getD, List.getElem?_map,
          List.getElem?_range hk]
        rfl)
      (by
        intro p hp hp0
        rw [hlen_st]
        have hmem : p.1 ∈ idx.data := (List.of_mem_zip hp).1
        have hmx1 := (maxList_spec idx.data mx0 hmx).1 p.1 hmem
        have hmx2 : p.1.toNat ≤ (max mx0 0).toNat :=
          Int.toNat_le_toNat (le_trans hmx1 (le_max_left _ _))
        omega)
      (by
        intro i p hget hneg
        rcases hok with hrank1 | hnn
        · obtain ⟨d0, hd0⟩ : ∃ d0, idx.shape = [d0] := by
            cases hsh : idx.shape with
            | nil =>
              rw [hsh] at hrank1
              simp at hrank1
            | cons d t =>
              cases t with
              | nil => exact ⟨d, rfl⟩
              | cons a b =>
                rw [hsh] at hrank1
                simp at hrank1
          have hVsh2 : V.shape = d0 :: rest := by
            rw [hVsh, hd0]
            rfl
          have hdlen : idx.data.length = d0 := by
            rw [hidx, hd0]
            simp
          have hVrows : V.rows = slicesOf V idx := by
            rw [rows_eq_chunks V d0 rest hVsh2]
            unfold slicesOf
            rw [hrest, hdlen]
          rw [List.get?_eq_getElem?] at hget
          rw [List.get?_eq_getElem?, Nat.zero_add, hVrows]
          exact (List.getElem?_zip_eq_some.mp hget).2
        · have hpm : p ∈ idx.data.zip (slicesOf V idx) :=
            List.get?_mem hget
          have hge := hnn p.1 (List.of_mem_zip hpm).1
          exact absurd hge (not_le.mpr hneg))
    rw [hfst, hsnd] at hmain
    exact hmain
  have hslices_ne : slicesOf V idx ≠ [] := by
    intro hcon
    apply hne
    have h0 : idx.data.length = 0 := by
      rw [← hslen, hcon]
      rfl
    exact List.eq_nil_of_length_eq_zero h0
  have hfrv2 : fromRowValuesE (slicesOf V idx) =
      .ok ⟨(slicesOf V idx).length :: rest,
        ((slicesOf V idx).map UArr.data).flatten⟩ :=
    fromRowValuesE_uniform rest _ hslices_ne hsl_shape
  have hslflat : ((slicesOf V idx).map UArr.data).flatten = V.data := by
    unfold slicesOf
    rw [List.map_map]
    have hcomp : (UArr.data ∘ fun d =>
        (⟨V.shape.drop idx.shape.length, d⟩ : UArr α)) = id := rfl
    rw [hcomp, List.map_id]
    exact chunksExact_flatten _ _ _ (by rw [hrest]; exact hVdata)
  have h2' : (do
      let out ← ungroupDraw V idx.data (G.rows.map UArr.rows) 0
      let v ← fromRowValuesE out
      Except.ok (⟨idx.shape ++ v.shape.tail, v.data⟩ : UArr α)) =
      .ok W := by
    unfold ungroupPart2 at h2
    rw [if_neg (by rw [hcheck]; exact Bool.false_ne_true)] at h2
    exact h2
  rw [hdraw] at h2'
  have h2'' : (do
      let v ← fromRowValuesE (slicesOf V idx)
      Except.ok (⟨idx.shape ++ v.shape.tail, v.data⟩ : UArr α)) =
      .ok W := h2'
  rw [hfrv2] at h2''
  have h2''' : Except.ok (⟨idx.shape ++
      ((slicesOf V idx).length :: rest).tail,
      ((slicesOf V idx).map UArr.data).flatten⟩ : UArr α) = .ok W := h2''
  rw [hslflat] at h2'''
  cases h2'''
  show (⟨idx.shape ++ rest, V.data⟩ : UArr α) = V
  rw [← hVsh]

/-- With the identity transform, unpartitioning the partitioned value
restores `V` whenever both stages succeed and `V` has at least one
row. -/
theorem partition_roundtrip (V : UArr α) (ms : List Int) (G W : UArr α)
    (hV : V.wf) (hn0 : V.shape.headD 0 ≠ 0)
    (h1 : partitionIdMap V ms = .ok G)
    (h2 : unpartitionPart2 G ms V = .ok W) : W = V := by
  obtain ⟨n, tail, hVsh⟩ : ∃ n tail, V.shape = n :: tail := by
    cases hsh : V.shape with
    | nil =>
      rw [hsh] at hn0
      exact absurd rfl hn0
    | cons n t => exact ⟨n, t, rfl⟩
  have hnne : n ≠ 0 := by
    rw [hVsh] at hn0
    simpa using hn0
  have hrc : V.rowCount = n := by
    show V.shape.headD 1 = n
    rw [hVsh]
    rfl
  have hlen : ms.length = V.rowCount := by
    by_contra hc
    unfold partitionIdMap partitionGroups at h1
    rw [if_pos hc] at h1
    have h' : (Except.error UErr.shapeMismatch : Except UErr (UArr α)) =
        .ok G := h1
    cases h'
  have hfirst : ∀ m, ms.head? = some m → m ≠ isizeMax := by
    intro m hm hcontr
    subst hcontr
    cases hms : ms with
    | nil =>
      rw [hms] at hm
      cases hm
    | cons m0 ms' =>
      rw [hms] at hm
      have hm0 : m0 = isizeMax := by simpa using hm
      subst hm0
      cases hrows : V.rows with
      | nil =>
        have hl := rows_length V
        rw [hrows, hrc] at hl
        simp only [List.length_nil] at hl
        exact hnne hl.symm
      | cons r0 rs =>
        unfold partitionIdMap partitionGroups at h1
        rw [if_neg (by omega), hrows, hms] at h1
        have hcrash : partStep (([] : List (List (UArr α))), isizeMax)
            (r0, isizeMax) = .error .crash := by
          unfold partStep
          dsimp only
          rw [if_pos (by norm_num [isizeMax]), if_neg (by simp)]
          rfl
        rw [List.zip_cons_cons, List.foldlM_cons, hcrash] at h1
        have h' : (Except.error UErr.crash : Except UErr (UArr α)) =
            .ok G := h1
        cases h'
  have hrun_rows : ∀ q ∈ runsOf (V.rows.zip ms), ∀ r ∈ q.2,
      r.shape = tail ∧ r.data.length = tail.prod := by
    intro q hq r hr
    obtain ⟨m', hm'⟩ :=
      runsOf_mem (V.rows.zip ms).length _ le_rfl q hq r hr
    exact rows_shape_wf V n tail hVsh hV r (List.of_mem_zip hm').1
  have hfrv : fromRowValuesE
      (((runsOf (V.rows.zip ms)).filter fun q => 0 < q.1).map
        fun q => fromRowArraysInfallible q.2) = .ok G := by
    unfold partitionIdMap at h1
    rw [partitionGroups_eq V ms hlen hfirst] at h1
    have h1' : (do
        let st ← collapseMapForm fromRowValuesE (idFn (UArr α))
          (((runsOf (V.rows.zip ms)).filter
              fun (q : Int × List (UArr α)) => 0 < q.1).map
            fun (q : Int × List (UArr α)) =>
              fromRowArraysInfallible q.2) []
        match st with
        | [g] => Except.ok g
        | _ => Except.error UErr.crash) = .ok G := h1
    rw [collapse_idFn (UArr α) fromRowValuesE _ []] at h1'
    cases hfr : fromRowValuesE
        (((runsOf (V.rows.zip ms)).filter fun q => 0 < q.1).map
          fun q => fromRowArraysInfallible q.2) with
    | error e =>
      rw [hfr] at h1'
      have h'' : (Except.error e : Except UErr (UArr α)) = .ok G := h1'
      cases h''
    | ok Gv =>
      rw [hfr] at h1'
      have h'' : (Except.ok Gv : Except UErr (UArr α)) = .ok G := h1'
      cases h''
      rfl
  have hGrows : G.rows = ((runsOf (V.rows.zip ms)).filter
      fun q => 0 < q.1).map fun q => fromRowArraysInfallible q.2 := by
    rcases fromRowValuesE_ok _ G hfrv with ⟨hcon, hGv⟩ | ⟨_, hGsh, hGval⟩
    · rw [hcon, hGv]
      rfl
    · have hglen : ∀ g ∈ ((runsOf (V.rows.zip ms)).filter
          fun q => 0 < q.1).map fun q => fromRowArraysInfallible q.2,
          g.data.length = G.shape.tail.prod := by
        intro g hg
        obtain ⟨q, hq, rfl⟩ := List.mem_map.mp hg
        rw [← hGsh _ hg]
        exact fromRowArraysInfallible_wf tail q.2
          (fun r hr => (hrun_rows q (List.mem_of_mem_filter hq) r hr).1)
          (fun r hr => (hrun_rows q (List.mem_of_mem_filter hq) r hr).2)
      have hmain := rows_stack G.shape.tail
        (((runsOf (V.rows.zip ms)).filter fun q => 0 < q.1).map
          fun q => fromRowArraysInfallible q.2)
        hGsh hglen
      rw [← hGval] at hmain
      exact hmain
  have hparts : markerParts ms = (runsOf (V.rows.zip ms)).map
      fun q => (q.1, q.2.length) := by
    rw [markerParts_eq_runsM]
    have hmaps : ms = (V.rows.zip ms).map Prod.snd :=
      (List.map_snd_zip _ _ (by rw [rows_length]; omega)).symm
    conv_lhs => rw [hmaps]
    exact runsM_eq_runsOf (V.rows.zip ms).length _ le_rfl
  have h2' : (if ((markerParts ms).filter fun p => p.1 > 0).length ≠
        G.rowCount then (Except.error UErr.consistencyError)
      else do
        let out ← unpartSplice V (markerParts ms) G.rows 0
        fromRowValuesE out) = .ok W := h2
  have hposlen : ((markerParts ms).filter fun p => p.1 > 0).length =
      G.rowCount := by
    by_contra hc
    rw [if_pos hc] at h2'
    cases h2'
  rw [if_neg (not_ne_iff.mpr hposlen)] at h2'
  have hfilter_len : ((runsOf (V.rows.zip ms)).filter
      fun q => 0 < q.1).length = G.rows.length := by
    rw [hGrows, List.length_map]
  have hdrop0 : V.rows.drop 0 = ((runsOf (V.rows.zip ms)).map
      Prod.snd).flatten := by
    rw [List.drop_zero, runsOf_flatten (V.rows.zip ms).length _ le_rfl,
      List.map_fst_zip _ _ (by rw [rows_length]; omega)]
  have hsplice := unpartSplice_eq V (runsOf (V.rows.zip ms)) G.rows 0
    hfilter_len hdrop0
  have hsplid : spliceD (runsOf (V.rows.zip ms)) G.rows =
      ((runsOf (V.rows.zip ms)).map Prod.snd).flatten := by
    rw [hGrows]
    exact spliceD_id tail _ hrun_rows
  have hflat : ((runsOf (V.rows.zip ms)).map Prod.snd).flatten =
      V.rows := by
    rw [runsOf_flatten (V.rows.zip ms).length _ le_rfl,
      List.map_fst_zip _ _ (by rw [rows_length]; omega)]
  rw [hparts, hsplice] at h2'
  have h2'' : fromRowValuesE (spliceD (runsOf (V.rows.zip ms)) G.rows) =
      .ok W := h2'
  rw [hsplid, hflat] at h2''
  have hrows_ne : V.rows ≠ [] := by
    intro hcon
    have hl := rows_length V
    rw [hcon, hrc] at hl
    simp only [List.length_nil] at hl
    exact hnne hl.symm
  have hfr2 : fromRowValuesE V.rows =
      .ok ⟨V.rows.length :: tail, (V.rows.map UArr.data).flatten⟩ :=
    fromRowValuesE_uniform tail V.rows hrows_ne
      (fun r hr => (rows_shape_wf V n tail hVsh hV r hr).1)
  rw [hfr2] at h2''
  have hrl : V.rows.length = n := by rw [rows_length, hrc]
  have hflat2 : (V.rows.map UArr.data).flatten = V.data := by
    rw [rows_eq_chunks V n tail hVsh, List.map_map]
    have hcomp : (UArr.data ∘ fun d => (⟨tail, d⟩ : UArr α)) = id := rfl
    rw [hcomp, List.map_id]
    exact chunksExact_flatten _ _ _ (by rw [hV, hVsh, List.prod_cons])
  cases h2''
  rw [hrl, hflat2, ← hVsh]

/-- **C2**.  With the identity transform, `ungroup ∘ group` and
`unpartition ∘ partition` reconstruct the original values array `V` —
but only under side conditions absent from the claim: for group/ungroup
the index array must be nonempty and either rank-1 or free of negative
indices, and for partition/unpartition `V` must have at least one row
(rank at least 1 with a nonzero leading dimension).  Outside these
conditions the round trip can succeed yet return an array of a
different shape, so the unconditional claim is refuted by the
counterexample below. -/
theorem c2_roundtrip (α : Type) :
    (∀ (V : UArr α) (idx : UArr Int) (G W : UArr α), V.wf → idx.wf →
      idx.data ≠ [] → (idx.shape.length = 1 ∨ ∀ i ∈ idx.data, 0 ≤ i) →
      groupIdMap V idx = .ok G → ungroupPart2 G idx V = .ok W →
      W = V) ∧
    (∀ (V : UArr α) (ms : List Int) (G W : UArr α), V.wf →
      V.shape.headD 0 ≠ 0 → partitionIdMap V ms = .ok G →
      unpartitionPart2 G ms V = .ok W → W = V) :=
  ⟨fun V idx G W hV hidx hne hok h1 h2 =>
      group_roundtrip V idx G W hV hidx hne hok h1 h2,
    fun V ms G W hV hn0 h1 h2 =>
      partition_roundtrip V ms G W hV hn0 h1 h2⟩

/-- **C2**, counterexample to the unconditional round-trip claim: for
the empty values array of shape `[0, 1]` and the empty rank-1 index
array, grouping and ungrouping both succeed but return the empty array
of shape `[0]`, which differs from `V`. -/
theorem c2_counterexample :
    groupIdMap (⟨[0, 1], []⟩ : UArr Int) ⟨[0], []⟩ = .ok ⟨[0], []⟩ ∧
    ungroupPart2 (⟨[0], []⟩ : UArr Int) ⟨[0], []⟩ ⟨[0, 1], []⟩ =
      .ok ⟨[0], []⟩ ∧
    (⟨[0], []⟩ : UArr Int) ≠ ⟨[0, 1], []⟩ :=
  ⟨by rfl, by rfl, by decide⟩

/-- **C2**, witness: the spec's §8 vectors run through the round trip
and the theorem applies to them. -/
theorem c2_witness :
    groupIdMap (⟨[4], [1, 2, 3, 4]⟩ : UArr Int) ⟨[4], [0, 1, 0, 1]⟩ =
      .ok ⟨[2, 2], [1, 3, 2, 4]⟩ ∧
    ungroupPart2 (⟨[2, 2], [1, 3, 2, 4]⟩ : UArr Int) ⟨[4], [0, 1, 0, 1]⟩
      ⟨[4], [1, 2, 3, 4]⟩ = .ok ⟨[4], [1, 2, 3, 4]⟩ ∧
    (⟨[4], [1, 2, 3, 4]⟩ : UArr Int) = ⟨[4], [1, 2, 3, 4]⟩ :=
  ⟨by rfl, by rfl,
    (c2_roundtrip Int).1 ⟨[4], [1, 2, 3, 4]⟩ ⟨[4], [0, 1, 0, 1]⟩
      ⟨[2, 2], [1, 3, 2, 4]⟩ ⟨[4], [1, 2, 3, 4]⟩ (by decide) (by decide)
      (by decide) (Or.inl rfl) (by rfl) (by rfl)⟩
